import Mathlib

/-!
Shallow embedding of the client-side search/ranking core of the NodeRunner
repository (src/client/src/lib/search.ts and the memoized-index module it
imports).  Strings are modelled over their character lists; the JS regex
classes `\s`, `\w`, `\d` and `String.prototype.toLowerCase`/`trim` are
modelled on the ASCII range, which is where every claim lives.  JS
`Array.prototype.sort` (ES2019+: stable, and sorted whenever the comparator
is consistent) is modelled as the unique permutation ordered by the
lexicographic pair (comparator sign, original position).  The memoization
cache (a JS `Map`) is modelled as an insertion-ordered association list and
threaded explicitly through the functions that read or write it.
-/

namespace NodeRunner

/-! ### Character classes (ASCII model of the JS regex classes) -/

/-- The JS regex class matched by white space here: space, tab, newline,
carriage return, vertical tab, form feed. -/
def isWsChar (c : Char) : Bool :=
  c = ' ' || c = '\t' || c = '\n' || c = '\r' || c = '\x0b' || c = '\x0c'

/-- The JS word-character class: letters, digits and underscore. -/
def isWordChar (c : Char) : Bool :=
  c.isAlphanum || c = '_'

/-- Characters kept by the final cleanup step of `normalizeText`
(the complement of the stripped class). -/
def keepChar (c : Char) : Bool :=
  isWordChar c || isWsChar c || c = '@' || c = '.' || c = '-'

/-! ### Normalizer -/

/-- Drop white space from both ends (JS `trim`, ASCII model). -/
def trimWs (l : List Char) : List Char :=
  ((l.dropWhile isWsChar).reverse.dropWhile isWsChar).reverse

/-- Replace every maximal run of white space by a single space
(JS `replace` of a one-or-more white space group by one space).  The flag
records whether the previous character belonged to a run. -/
def collapseWsAux : Bool → List Char → List Char
  | _, [] => []
  | true, c :: cs =>
    if isWsChar c then collapseWsAux true cs
    else c :: collapseWsAux false cs
  | false, c :: cs =>
    if isWsChar c then ' ' :: collapseWsAux true cs
    else c :: collapseWsAux false cs

def collapseWs (l : List Char) : List Char :=
  collapseWsAux false l

/-- `normalizeText` of search.ts: empty/absent input gives the empty string,
otherwise lowercase, trim, collapse runs of white space, then strip every
character outside the kept class. -/
def normalizeText (s : String) : String :=
  if s = "" then ""
  else String.mk (List.filter keepChar (collapseWs (trimWs (s.data.map Char.toLower))))

/-- A nullable string field passed to `normalizeText`: JS `null`/`undefined`
fall into the same falsy branch as the empty string. -/
def normalizeTextOpt (o : Option String) : String :=
  normalizeText (o.getD "")

/-- `normalizePhone` of search.ts: keep only the digits. -/
def normalizePhone (o : Option String) : String :=
  String.mk ((o.getD "").data.filter Char.isDigit)

/-! ### Splitting helpers -/

/-- Split at every character satisfying `p`, dropping empty pieces
(JS `split` on a one-or-more character class, then a filter on length). -/
def splitDropAux (p : Char → Bool) : List Char → List Char → List String
  | [], acc => if acc.isEmpty then [] else [String.mk acc.reverse]
  | c :: cs, acc =>
    if p c then
      if acc.isEmpty then splitDropAux p cs []
      else String.mk acc.reverse :: splitDropAux p cs []
    else splitDropAux p cs (c :: acc)

def splitDrop (p : Char → Bool) (s : String) : List String :=
  splitDropAux p s.data []

/-- Split at every occurrence of one character, keeping empty pieces
(JS `split` with a one-character string separator). -/
def splitCharAux (sep : Char) : List Char → List Char → List (List Char)
  | [], acc => [acc.reverse]
  | c :: cs, acc =>
    if c = sep then acc.reverse :: splitCharAux sep cs []
    else splitCharAux sep cs (c :: acc)

def splitChar (sep : Char) (s : String) : List String :=
  (splitCharAux sep s.data []).map String.mk

/-- The token separators of the tokenizer: white space, hyphen, underscore,
period. -/
def isTokenSep (c : Char) : Bool :=
  isWsChar c || c = '-' || c = '_' || c = '.'

/-- `tokenize` of search.ts. -/
def tokenize (query : String) : List String :=
  splitDrop isTokenSep (normalizeText query)

/-! ### Data model -/

/-- A contact record as this core reads it.  `name` is non-nullable in the
repository's schema; the other searchable fields are nullable. -/
structure Contact where
  id : String
  name : String
  email : Option String
  phone : Option String
  company : Option String
deriving DecidableEq, Repr

structure SearchIndex where
  nameWords : List String
  nameFull : String
  emailLocal : String
  emailDomain : String
  companyWords : List String
  phoneDigits : String
deriving DecidableEq, Repr

/-- Assemble a `SearchIndex` from the already-normalized field values;
shared by the total builder and the JS-value builder below. -/
def mkIndex (nameFull email company phoneDigits : String) : SearchIndex :=
  let emailParts := splitChar '@' email
  { nameWords := splitDrop isWsChar nameFull
    nameFull := nameFull
    emailLocal := emailParts.getD 0 ""
    emailDomain := emailParts.getD 1 ""
    companyWords := splitDrop isWsChar company
    phoneDigits := phoneDigits }

/-- `buildIndex` of search.ts. -/
def buildIndex (c : Contact) : SearchIndex :=
  mkIndex (normalizeText c.name) (normalizeTextOpt c.email)
    (normalizeTextOpt c.company) (normalizePhone c.phone)

/-! ### String matching primitives -/

/-- Boolean list-precedes test: the first list is an initial segment of the
second (JS `startsWith` on the underlying characters). -/
def listStarts : List Char → List Char → Bool
  | [], _ => true
  | _ :: _, [] => false
  | a :: as, b :: bs => a == b && listStarts as bs

def strStartsWith (s t : String) : Bool :=
  listStarts t.data s.data

/-- Boolean containment test (JS `includes`). -/
def strContains (s t : String) : Bool :=
  (List.range (s.data.length + 1)).any fun i => listStarts t.data (s.data.drop i)

/-- `hasPrefix` of search.ts: some word starts with the token. -/
def hasPrefix (haystackWords : List String) (token : String) : Bool :=
  haystackWords.any fun w => strStartsWith w token

/-- `hasSubstring` of search.ts: the token appears inside some haystack string. -/
def hasSubstring (haystackStrings : List String) (token : String) : Bool :=
  haystackStrings.any fun s => strContains s token

/-- The JS regex test for an all-digit token (one or more digits, anchored at
both ends). -/
def isAllDigits (t : String) : Bool :=
  !t.data.isEmpty && t.data.all Char.isDigit

/-! ### Match classifier -/

/-- The four prefix checks run for one token inside `classifyMatch`. -/
def tokenPrefixHit (index : SearchIndex) (token : String) : Bool :=
  hasPrefix index.nameWords token ||
  hasPrefix index.companyWords token ||
  strStartsWith index.emailLocal token || strStartsWith index.emailDomain token ||
  (isAllDigits token && strStartsWith index.phoneDigits token)

/-- The substring fallback list of `classifyMatch`. -/
def tokenSubstringHit (index : SearchIndex) (token : String) : Bool :=
  hasSubstring
    ([index.nameFull, index.emailLocal, index.emailDomain]
      ++ index.companyWords ++ [index.phoneDigits]) token

/-- A token matches the record when it scores a prefix hit or, failing that,
a substring hit. -/
def tokenMatches (index : SearchIndex) (token : String) : Bool :=
  tokenPrefixHit index token || tokenSubstringHit index token

/-- The loop of `classifyMatch`; the flag carries whether any earlier token
scored a prefix hit. -/
def classifyAux (index : SearchIndex) : List String → Bool → Option Nat
  | [], anyPrefixHit => some (if anyPrefixHit then 1 else 2)
  | t :: ts, anyPrefixHit =>
    if tokenMatches index t then
      classifyAux index ts (anyPrefixHit || tokenPrefixHit index t)
    else none

/-- `classifyMatch` of search.ts: `some 1`, `some 2` or `none`. -/
def classifyMatch (tokens : List String) (index : SearchIndex) : Option Nat :=
  classifyAux index tokens false

/-! ### Tie-break resolver -/

inductive Field where
  | name
  | email
  | company
  | phone
deriving DecidableEq, Repr

/-- The field priority order of `bestFieldForTie` (and of the sort below). -/
def priorityList (numericIntent : Bool) : List Field :=
  if numericIntent then [.phone, .name, .email, .company]
  else [.name, .email, .company, .phone]

/-- One field's tier-scoped match condition for one token, as checked inside
`bestFieldForTie`. -/
def fieldTokenMatch (index : SearchIndex) (tier : Nat) (token : String) : Field → Bool
  | .name =>
    (tier == 1 && hasPrefix index.nameWords token) ||
    (tier == 2 && strContains index.nameFull token)
  | .email =>
    (tier == 1 && (strStartsWith index.emailLocal token || strStartsWith index.emailDomain token)) ||
    (tier == 2 && (strContains index.emailLocal token || strContains index.emailDomain token))
  | .company =>
    (tier == 1 && hasPrefix index.companyWords token) ||
    (tier == 2 && index.companyWords.any fun w => strContains w token)
  | .phone =>
    isAllDigits token &&
      ((tier == 1 && strStartsWith index.phoneDigits token) ||
       (tier == 2 && strContains index.phoneDigits token))

def fieldHasMatch (tokens : List String) (index : SearchIndex) (tier : Nat) (f : Field) : Bool :=
  tokens.any fun t => fieldTokenMatch index tier t f

/-- `bestFieldForTie` of search.ts: first field in priority order with a
satisfying token, `name` as the fallback. -/
def bestFieldForTie (tokens : List String) (index : SearchIndex) (tier : Nat)
    (numericIntent : Bool) : Field :=
  match (priorityList numericIntent).find? (fieldHasMatch tokens index tier) with
  | some f => f
  | none => .name

/-! ### Memoization cache -/

/-- JS 32-bit signed wrap-around (`x | 0` / `x & x`). -/
def toInt32 (n : Int) : Int :=
  (n + 2 ^ 31) % 2 ^ 32 - 2 ^ 31

/-- One step of the rolling hash: `hash = ((hash << 5) - hash) + code` with
32-bit wrap-around after the shift and after the sum. -/
def hashStep (h : Int) (c : Char) : Int :=
  toInt32 (toInt32 (h * 32) - h + (c.toNat : Int))

def jsHash (s : String) : Int :=
  s.data.foldl hashStep 0

/-- The joined searchable fields hashed for the cache key; the JS array join
renders null and undefined as empty strings. -/
def searchableData (c : Contact) : String :=
  c.name ++ "|" ++ c.email.getD "" ++ "|" ++ c.company.getD "" ++ "|" ++ c.phone.getD ""

/-- `getCacheKey` of the memoized-index module. -/
def getCacheKey (c : Contact) : String :=
  c.id ++ ":" ++ toString (jsHash (searchableData c))

/-- The process-wide index cache, modelled as an insertion-ordered
association list (a JS `Map` over string keys). -/
abbrev Cache := List (String × SearchIndex)

def cacheGet (σ : Cache) (k : String) : Option SearchIndex :=
  (σ.find? fun e => e.1 == k).map (·.2)

/-- JS `Map.set`: update an existing key in place, else append. -/
def cacheSet : Cache → String → SearchIndex → Cache
  | [], k, v => [(k, v)]
  | e :: σ, k, v => if e.1 == k then (k, v) :: σ else e :: cacheSet σ k v

/-- The eviction loop of `getMemoizedIndex`: delete every key with the same
record-id piece in front but a different fingerprint. -/
def evictStale (σ : Cache) (idPiece key : String) : Cache :=
  σ.filter fun e => !(strStartsWith e.1 idPiece && e.1 != key)

/-- `getMemoizedIndex` of the memoized-index module, with the cache threaded
explicitly. -/
def getMemoizedIndex (σ : Cache) (c : Contact) : SearchIndex × Cache :=
  let key := getCacheKey c
  match cacheGet σ key with
  | some idx => (idx, σ)
  | none =>
    let idx := buildIndex c
    (idx, evictStale (cacheSet σ key idx) (c.id ++ ":") key)

/-- `clearIndexCache`. -/
def clearIndexCache : Cache := []

/-- `getCacheStats`: size and key set. -/
def getCacheStats (σ : Cache) : Nat × List String :=
  (σ.length, σ.map (·.1))

/-! ### Ranking pipeline -/

structure RankItem where
  contact : Contact
  tier : Nat
  bestField : Field
  index : SearchIndex
deriving DecidableEq, Repr

/-- The numeric field-priority table used by the sort comparator. -/
def fieldPriority (numericIntent : Bool) (f : Field) : Nat :=
  match numericIntent, f with
  | true, .phone => 0
  | true, .name => 1
  | true, .email => 2
  | true, .company => 3
  | false, .name => 0
  | false, .email => 1
  | false, .company => 2
  | false, .phone => 3

def lowerChars (s : String) : List Char :=
  s.data.map Char.toLower

/-- Three-way lexicographic comparison of character lists. -/
def cmpChars : List Char → List Char → Ordering
  | [], [] => .eq
  | [], _ :: _ => .lt
  | _ :: _, [] => .gt
  | a :: as, b :: bs => if a < b then .lt else if b < a then .gt else cmpChars as bs

/-- `localeCompare` with base sensitivity, modelled as case-insensitive
lexicographic comparison returning a sign. -/
def localeCompareBase (x y : String) : Int :=
  match cmpChars (lowerChars x) (lowerChars y) with
  | .lt => -1
  | .eq => 0
  | .gt => 1

/-- The sort comparator of `filterAndRank`: tier, then field priority, then
case-insensitive name. -/
def rankCmp (numericIntent : Bool) (a b : RankItem) : Int :=
  if a.tier ≠ b.tier then (a.tier : Int) - (b.tier : Int)
  else
    let pa := fieldPriority numericIntent a.bestField
    let pb := fieldPriority numericIntent b.bestField
    if pa ≠ pb then (pa : Int) - (pb : Int)
    else localeCompareBase a.contact.name b.contact.name

/-- The order a stable JS sort realizes: comparator sign first, original
position on ties. -/
def sortLE (cmp : α → α → Int) (p q : Nat × α) : Prop :=
  cmp p.2 q.2 < 0 ∨ (cmp p.2 q.2 = 0 ∧ p.1 ≤ q.1)

instance (cmp : α → α → Int) : DecidableRel (sortLE cmp) := fun p q => by
  unfold sortLE
  exact inferInstance

/-- ES2019 `Array.prototype.sort` with a consistent comparator: the unique
stable, comparator-sorted permutation, realized by sorting the
position-annotated list by `sortLE`. -/
def jsStableSort (cmp : α → α → Int) (l : List α) : List α :=
  ((l.enum).insertionSort (sortLE cmp)).map Prod.snd

/-- The regex test for numeric intent: the token opens with three or more
digits. -/
def startsWith3Digits (t : String) : Bool :=
  decide (3 ≤ t.data.length) && (t.data.take 3).all Char.isDigit

def numericIntentOf (tokens : List String) : Bool :=
  tokens.any startsWith3Digits

def trimmedQuery (query : String) : List Char :=
  trimWs query.data

/-- Count of digit characters of the trimmed query. -/
def digitCount (query : String) : Nat :=
  (trimmedQuery query).countP fun c => Char.isDigit c

/-- Length of the trimmed query with white space removed. -/
def nonSpaceCharCount (query : String) : Nat :=
  ((trimmedQuery query).filter fun c => !isWsChar c).length

/-- The classification loop of `filterAndRank`: memoized index, classify,
keep survivors with their tier and tie-break field. -/
def rankResults (toks : List String) (nI : Bool) : Cache → List Contact → List RankItem × Cache
  | σ, [] => ([], σ)
  | σ, c :: cs =>
    let r := getMemoizedIndex σ c
    match classifyMatch toks r.1 with
    | none => rankResults toks nI r.2 cs
    | some tier =>
      let rest := rankResults toks nI r.2 cs
      (⟨c, tier, bestFieldForTie toks r.1 tier nI, r.1⟩ :: rest.1, rest.2)

/-- `filterAndRank` of search.ts, with the cache threaded explicitly. -/
def filterAndRank (σ : Cache) (contacts : List Contact) (query : String) :
    List Contact × Cache :=
  if nonSpaceCharCount query < 3 ∧ digitCount query < 3 then (contacts, σ)
  else
    let toks := tokenize query
    if toks.isEmpty then (contacts, σ)
    else
      let nI := numericIntentOf toks
      let res := rankResults toks nI σ contacts
      ((jsStableSort (rankCmp nI) res.1).map RankItem.contact, res.2)

/-! ### Specification-side notions used to state the claims -/

/-- The cache-free classification of one record: what `filterAndRank`
computes for it when the cache serves no stale index. -/
def rankOf (toks : List String) (nI : Bool) (c : Contact) : Option RankItem :=
  match classifyMatch toks (buildIndex c) with
  | none => none
  | some tier => some ⟨c, tier, bestFieldForTie toks (buildIndex c) tier nI, buildIndex c⟩

/-- Every cache entry that is keyed like one of the given records holds that
record's true index (no stale fingerprint collision is pending). -/
def cacheFaithfulFor (σ : Cache) (cs : List Contact) : Prop :=
  ∀ e ∈ σ, ∀ c ∈ cs, e.1 = getCacheKey c → e.2 = buildIndex c

/-- Two of the given records that share a cache key have the same index
(no fingerprint collision inside the batch). -/
def keysInjectiveOn (cs : List Contact) : Prop :=
  ∀ c ∈ cs, ∀ c' ∈ cs, getCacheKey c = getCacheKey c' → buildIndex c = buildIndex c'

/-- The sort key the specification describes: tier, position of the best
field in the numeric-intent-dependent priority order, case-folded name. -/
def specKey (nI : Bool) (r : RankItem) : Nat × Nat × List Char :=
  (r.tier, (priorityList nI).indexOf r.bestField, lowerChars r.contact.name)

/-- Strict lexicographic order on specification sort keys. -/
def keyLt (x y : Nat × Nat × List Char) : Prop :=
  x.1 < y.1 ∨ (x.1 = y.1 ∧ (x.2.1 < y.2.1 ∨ (x.2.1 = y.2.1 ∧ cmpChars x.2.2 y.2.2 = .lt)))

/-- The specified order on position-annotated rank items: strictly smaller
key, or equal keys and earlier input position (stability). -/
def specLE (nI : Bool) (p q : Nat × RankItem) : Prop :=
  keyLt (specKey nI p.2) (specKey nI q.2) ∨ (specKey nI p.2 = specKey nI q.2 ∧ p.1 < q.1)

/-- Everything `filterAndRank` does past the minimum-length gate. -/
def applyFiltering (σ : Cache) (contacts : List Contact) (query : String) :
    List Contact × Cache :=
  let toks := tokenize query
  if toks.isEmpty then (contacts, σ)
  else
    let nI := numericIntentOf toks
    let res := rankResults toks nI σ contacts
    ((jsStableSort (rankCmp nI) res.1).map RankItem.contact, res.2)

/-- The pipeline with the digit clause removed from the gate, per the
redundancy claim. -/
def filterAndRankNoDigitGate (σ : Cache) (contacts : List Contact) (query : String) :
    List Contact × Cache :=
  if nonSpaceCharCount query < 3 then (contacts, σ)
  else
    let toks := tokenize query
    if toks.isEmpty then (contacts, σ)
    else
      let nI := numericIntentOf toks
      let res := rankResults toks nI σ contacts
      ((jsStableSort (rankCmp nI) res.1).map RankItem.contact, res.2)

/-! ### White space shape predicates (for the normalizer claim) -/

def hasLeadingWsL : List Char → Bool
  | [] => false
  | c :: _ => isWsChar c

def hasTrailingWsL : List Char → Bool
  | [] => false
  | [c] => isWsChar c
  | _ :: cs => hasTrailingWsL cs

/-- Two consecutive white space characters occur somewhere. -/
def hasWsRunL : List Char → Bool
  | a :: b :: cs => (isWsChar a && isWsChar b) || hasWsRunL (b :: cs)
  | _ => false

def hasLeadingWs (s : String) : Bool := hasLeadingWsL s.data

def hasTrailingWs (s : String) : Bool := hasTrailingWsL s.data

def hasWsRun (s : String) : Bool := hasWsRunL s.data

/-! ### JS dynamic values (for the no-exception claim)

The TypeScript types promise a string `name`, but the no-exception claim
ranges over null, undefined and non-string field values, so this layer
re-runs the pipeline over a JS value type and returns `Except`, with
`.error ()` standing for a thrown `TypeError`.  A JS sort may call its
comparator on an implementation-defined set of pairs; the insertion sort
used here realizes one compliant schedule, and the claim instances settled
below (two surviving tied records; all comparators total) do not depend on
the schedule. -/

inductive JSVal where
  | vstr (s : String)
  | vnull
  | vundef
  | vnum (n : Int)
deriving DecidableEq, Repr

def jsFalsy : JSVal → Bool
  | .vstr s => s == ""
  | .vnull => true
  | .vundef => true
  | .vnum n => n == 0

/-- JS `String(v)` coercion as it appears in `localeCompare` arguments. -/
def jsToString : JSVal → String
  | .vstr s => s
  | .vnull => "null"
  | .vundef => "undefined"
  | .vnum n => toString n

/-- How `Array.prototype.join` renders one element: null and undefined
become empty strings. -/
def jsJoinPiece : JSVal → String
  | .vstr s => s
  | .vnull => ""
  | .vundef => ""
  | .vnum n => toString n

/-- `normalizeText` on a raw JS value: falsy values short-circuit to the
empty string, a truthy non-string has no `toLowerCase` and throws. -/
def normalizeTextJS (v : JSVal) : Except Unit String :=
  if jsFalsy v then .ok ""
  else
    match v with
    | .vstr s => .ok (normalizeText s)
    | _ => .error ()

/-- A record whose `name` field carries an arbitrary JS value. -/
structure ContactJS where
  id : String
  name : JSVal
  email : Option String
  phone : Option String
  company : Option String
deriving DecidableEq, Repr

def searchableDataJS (c : ContactJS) : String :=
  jsJoinPiece c.name ++ "|" ++ c.email.getD "" ++ "|" ++ c.company.getD "" ++ "|" ++ c.phone.getD ""

def getCacheKeyJS (c : ContactJS) : String :=
  c.id ++ ":" ++ toString (jsHash (searchableDataJS c))

def buildIndexJS (c : ContactJS) : Except Unit SearchIndex :=
  (normalizeTextJS c.name).map fun nameFull =>
    mkIndex nameFull (normalizeTextOpt c.email) (normalizeTextOpt c.company) (normalizePhone c.phone)

def getMemoizedIndexJS (σ : Cache) (c : ContactJS) : Except Unit (SearchIndex × Cache) :=
  let key := getCacheKeyJS c
  match cacheGet σ key with
  | some idx => .ok (idx, σ)
  | none =>
    (buildIndexJS c).map fun idx => (idx, evictStale (cacheSet σ key idx) (c.id ++ ":") key)

structure RankItemJS where
  contact : ContactJS
  tier : Nat
  bestField : Field
  index : SearchIndex
deriving DecidableEq, Repr

/-- `a.localeCompare(b)`: throws unless the receiver is a string; the
argument is coerced to a string. -/
def localeCompareJS (a b : JSVal) : Except Unit Int :=
  match a with
  | .vstr x => .ok (localeCompareBase x (jsToString b))
  | _ => .error ()

def rankCmpJS (nI : Bool) (a b : RankItemJS) : Except Unit Int :=
  if a.tier ≠ b.tier then .ok ((a.tier : Int) - (b.tier : Int))
  else
    let pa := fieldPriority nI a.bestField
    let pb := fieldPriority nI b.bestField
    if pa ≠ pb then .ok ((pa : Int) - (pb : Int))
    else localeCompareJS a.contact.name b.contact.name

def orderedInsertE (cmpE : α → α → Except Unit Int) (a : α) : List α → Except Unit (List α)
  | [] => .ok [a]
  | b :: l => do
    let v ← cmpE a b
    if v ≤ 0 then .ok (a :: b :: l)
    else do
      let l' ← orderedInsertE cmpE a l
      .ok (b :: l')

/-- A comparison sort threading the comparator's exceptions. -/
def sortE (cmpE : α → α → Except Unit Int) : List α → Except Unit (List α)
  | [] => .ok []
  | a :: l => do
    let l' ← sortE cmpE l
    orderedInsertE cmpE a l'

def rankResultsJS (toks : List String) (nI : Bool) :
    Cache → List ContactJS → Except Unit (List RankItemJS × Cache)
  | σ, [] => .ok ([], σ)
  | σ, c :: cs => do
    let r ← getMemoizedIndexJS σ c
    match classifyMatch toks r.1 with
    | none => rankResultsJS toks nI r.2 cs
    | some tier => do
      let rest ← rankResultsJS toks nI r.2 cs
      .ok (⟨c, tier, bestFieldForTie toks r.1 tier nI, r.1⟩ :: rest.1, rest.2)

/-- `filterAndRank` over JS values: `.error ()` when the body throws. -/
def filterAndRankJS (σ : Cache) (contacts : List ContactJS) (query : String) :
    Except Unit (List ContactJS × Cache) :=
  if nonSpaceCharCount query < 3 ∧ digitCount query < 3 then .ok (contacts, σ)
  else
    let toks := tokenize query
    if toks.isEmpty then .ok (contacts, σ)
    else do
      let nI := numericIntentOf toks
      let res ← rankResultsJS toks nI σ contacts
      let sorted ← sortE (rankCmpJS nI) res.1
      .ok (sorted.map RankItemJS.contact, res.2)

/-- `filterAndRank` with its arguments as raw JS values: the query may be
any value — `query.trim()` throws unless it is a string — and the record
list may be null/undefined (`none`), which the gate and zero-token early
returns hand back untouched but the classification loop's `for … of`
throws on. -/
def filterAndRankJSTop (σ : Cache) (contacts : Option (List ContactJS)) (query : JSVal) :
    Except Unit (Option (List ContactJS) × Cache) :=
  match query with
  | .vstr q =>
    if nonSpaceCharCount q < 3 ∧ digitCount q < 3 then .ok (contacts, σ)
    else if (tokenize q).isEmpty then .ok (contacts, σ)
    else
      match contacts with
      | none => .error ()
      | some cs => (filterAndRankJS σ cs q).map fun p => (some p.1, p.2)
  | _ => .error ()

/-! ## Helper lemmas: white space shape through trim and collapse -/

theorem hasLeadingWsL_append {l m : List Char} (h : l ≠ []) :
    hasLeadingWsL (l ++ m) = hasLeadingWsL l := by
  cases l with
  | nil => exact absurd rfl h
  | cons c cs => rfl

theorem hasTrailingWsL_cons {c : Char} {l : List Char} (h : l ≠ []) :
    hasTrailingWsL (c :: l) = hasTrailingWsL l := by
  cases l with
  | nil => exact absurd rfl h
  | cons d ds => rfl

theorem hasTrailingWsL_eq_reverse (l : List Char) :
    hasTrailingWsL l = hasLeadingWsL l.reverse := by
  induction l with
  | nil => rfl
  | cons c cs ih =>
    cases cs with
    | nil => rfl
    | cons d ds =>
      have h1 : hasTrailingWsL (c :: d :: ds) = hasTrailingWsL (d :: ds) := rfl
      have h2 : (c :: d :: ds).reverse = (d :: ds).reverse ++ [c] := by simp
      rw [h1, ih, h2, hasLeadingWsL_append (by simp)]

theorem hasLeadingWsL_dropWhile (l : List Char) :
    hasLeadingWsL (l.dropWhile isWsChar) = false := by
  induction l with
  | nil => rfl
  | cons c cs ih =>
    cases h : isWsChar c with
    | true => simpa [List.dropWhile_cons, h] using ih
    | false => simp [List.dropWhile_cons, h, hasLeadingWsL]

theorem hasLeadingWsL_of_front {x l : List Char} (hp : x <+: l)
    (h : hasLeadingWsL l = false) : hasLeadingWsL x = false := by
  obtain ⟨t, rfl⟩ := hp
  cases x with
  | nil => rfl
  | cons c cs => rw [hasLeadingWsL_append (by simp)] at h; exact h

theorem trimWs_front (l : List Char) : trimWs l <+: l.dropWhile isWsChar := by
  have h : trimWs l <+: (l.dropWhile isWsChar).reverse.reverse := by
    unfold trimWs
    exact List.reverse_prefix.mpr (List.dropWhile_suffix _)
  simpa using h

theorem trimWs_leading (l : List Char) : hasLeadingWsL (trimWs l) = false :=
  hasLeadingWsL_of_front (trimWs_front l) (hasLeadingWsL_dropWhile l)

theorem trimWs_trailing (l : List Char) : hasTrailingWsL (trimWs l) = false := by
  rw [hasTrailingWsL_eq_reverse]
  unfold trimWs
  rw [List.reverse_reverse]
  exact hasLeadingWsL_dropWhile _

theorem mem_trimWs {c : Char} {l : List Char} (h : c ∈ trimWs l) : c ∈ l :=
  (List.dropWhile_sublist _).subset ((trimWs_front l).subset h)

theorem collapseWsAux_mem {c : Char} : ∀ {l : List Char} {b : Bool},
    c ∈ collapseWsAux b l → c = ' ' ∨ c ∈ l := by
  intro l
  induction l with
  | nil => intro b h; cases b <;> simp [collapseWsAux] at h
  | cons d ds ih =>
    intro b h
    have step : c = ' ' ∨ c = d ∨ c ∈ ds → c = ' ' ∨ c ∈ d :: ds := by
      intro h'
      rcases h' with h' | h' | h'
      · exact Or.inl h'
      · exact Or.inr (List.mem_cons.mpr (Or.inl h'))
      · exact Or.inr (List.mem_cons.mpr (Or.inr h'))
    cases b with
    | true =>
      simp only [collapseWsAux] at h
      by_cases hd : isWsChar d
      · rw [if_pos hd] at h
        rcases ih h with h' | h'
        · exact step (Or.inl h')
        · exact step (Or.inr (Or.inr h'))
      · rw [if_neg hd] at h
        rcases List.mem_cons.mp h with h' | h'
        · exact step (Or.inr (Or.inl h'))
        · rcases ih h' with h'' | h''
          · exact step (Or.inl h'')
          · exact step (Or.inr (Or.inr h''))
    | false =>
      simp only [collapseWsAux] at h
      by_cases hd : isWsChar d
      · rw [if_pos hd] at h
        rcases List.mem_cons.mp h with h' | h'
        · exact step (Or.inl h')
        · rcases ih h' with h'' | h''
          · exact step (Or.inl h'')
          · exact step (Or.inr (Or.inr h''))
      · rw [if_neg hd] at h
        rcases List.mem_cons.mp h with h' | h'
        · exact step (Or.inr (Or.inl h'))
        · rcases ih h' with h'' | h''
          · exact step (Or.inl h'')
          · exact step (Or.inr (Or.inr h''))

theorem collapseWsAux_ne_nil : ∀ {l : List Char} {b : Bool},
    (∃ c ∈ l, isWsChar c = false) → collapseWsAux b l ≠ [] := by
  intro l
  induction l with
  | nil => intro b h; simp at h
  | cons d ds ih =>
    intro b h
    have hds : isWsChar d = true → ∃ c ∈ ds, isWsChar c = false := by
      intro hd
      rcases h with ⟨c, hc, hcw⟩
      rcases List.mem_cons.mp hc with rfl | hc'
      · rw [hd] at hcw; cases hcw
      · exact ⟨c, hc', hcw⟩
    cases b with
    | true =>
      simp only [collapseWsAux]
      by_cases hd : isWsChar d
      · rw [if_pos hd]; exact ih (hds hd)
      · rw [if_neg hd]; simp
    | false =>
      simp only [collapseWsAux]
      by_cases hd : isWsChar d
      · rw [if_pos hd]; simp
      · rw [if_neg hd]; simp

theorem collapseWsAux_false_ne_nil {d : Char} {ds : List Char} :
    collapseWsAux false (d :: ds) ≠ [] := by
  simp only [collapseWsAux]
  by_cases hd : isWsChar d
  · rw [if_pos hd]; simp
  · rw [if_neg hd]; simp

theorem hasLeadingWsL_collapseWsAux_true : ∀ (l : List Char),
    hasLeadingWsL (collapseWsAux true l) = false := by
  intro l
  induction l with
  | nil => rfl
  | cons d ds ih =>
    simp only [collapseWsAux]
    by_cases hd : isWsChar d
    · rw [if_pos hd]; exact ih
    · rw [if_neg hd]; simpa [hasLeadingWsL] using hd

theorem hasLeadingWsL_collapseWs {l : List Char} (h : hasLeadingWsL l = false) :
    hasLeadingWsL (collapseWs l) = false := by
  cases l with
  | nil => rfl
  | cons d ds =>
    have hd : isWsChar d = false := h
    simp only [collapseWs, collapseWsAux]
    rw [if_neg (by simp [hd])]
    exact hd

theorem exists_nonWs_of_trailing {l : List Char} (hne : l ≠ [])
    (h : hasTrailingWsL l = false) : ∃ c ∈ l, isWsChar c = false := by
  induction l with
  | nil => exact absurd rfl hne
  | cons d ds ih =>
    cases ds with
    | nil => exact ⟨d, List.mem_cons_self _ _, h⟩
    | cons e es =>
      rw [hasTrailingWsL_cons (by simp)] at h
      rcases ih (by simp) h with ⟨c, hc, hcw⟩
      exact ⟨c, List.mem_cons_of_mem _ hc, hcw⟩

theorem hasTrailingWsL_collapseWsAux : ∀ {l : List Char} {b : Bool},
    hasTrailingWsL l = false → hasTrailingWsL (collapseWsAux b l) = false := by
  intro l
  induction l with
  | nil => intro b _; cases b <;> rfl
  | cons d ds ih =>
    intro b h
    by_cases hd : isWsChar d
    · have hds0 : ds ≠ [] := by
        intro hnil
        subst hnil
        have h' : isWsChar d = false := h
        rw [hd] at h'
        cases h'
      have hds : hasTrailingWsL ds = false := by
        rwa [hasTrailingWsL_cons hds0] at h
      cases b with
      | true =>
        simp only [collapseWsAux]
        rw [if_pos hd]
        exact ih hds
      | false =>
        simp only [collapseWsAux]
        rw [if_pos hd]
        have hne : collapseWsAux true ds ≠ [] :=
          collapseWsAux_ne_nil (exists_nonWs_of_trailing hds0 hds)
        rw [hasTrailingWsL_cons hne]
        exact ih hds
    · have hred : collapseWsAux b (d :: ds) = d :: collapseWsAux false ds := by
        cases b <;> simp only [collapseWsAux] <;> rw [if_neg hd]
      rw [hred]
      cases ds with
      | nil => simpa [collapseWsAux, hasTrailingWsL] using h
      | cons e es =>
        have hds : hasTrailingWsL (e :: es) = false := by
          rwa [hasTrailingWsL_cons (by simp)] at h
        rw [hasTrailingWsL_cons collapseWsAux_false_ne_nil]
        exact ih hds

theorem hasWsRunL_collapseWsAux : ∀ {l : List Char} {b : Bool},
    hasWsRunL (collapseWsAux b l) = false := by
  intro l
  induction l with
  | nil => intro b; cases b <;> rfl
  | cons d ds ih =>
    intro b
    by_cases hd : isWsChar d
    · cases b with
      | true =>
        simp only [collapseWsAux]
        rw [if_pos hd]
        exact ih
      | false =>
        simp only [collapseWsAux]
        rw [if_pos hd]
        cases he : collapseWsAux true ds with
        | nil => rfl
        | cons e es =>
          have hlead : isWsChar e = false := by
            have h0 := hasLeadingWsL_collapseWsAux_true ds
            rwa [he] at h0
          have hrun : hasWsRunL (e :: es) = false := by
            have h0 : hasWsRunL (collapseWsAux true ds) = false := ih
            rwa [he] at h0
          simp [hasWsRunL, hlead, hrun]
    · have hred : collapseWsAux b (d :: ds) = d :: collapseWsAux false ds := by
        cases b <;> simp only [collapseWsAux] <;> rw [if_neg hd]
      rw [hred]
      cases he : collapseWsAux false ds with
      | nil => rfl
      | cons e es =>
        have hrun : hasWsRunL (e :: es) = false := by
          have h0 : hasWsRunL (collapseWsAux false ds) = false := ih
          rwa [he] at h0
        have hdf : isWsChar d = false := by simpa using hd
        simp [hasWsRunL, hdf, hrun]

/-- C6 counterexample: the character strip runs after the white-space
collapse, so stripping can reintroduce leading white space and internal
white-space runs, contrary to the claim's closing guarantee. -/
theorem normalizeText_c6_counterexample :
    normalizeText "$ a" = " a" ∧ hasLeadingWs (normalizeText "$ a") = true
      ∧ normalizeText "a $ b" = "a  b" ∧ hasWsRun (normalizeText "a $ b") = true :=
  ⟨by decide, by decide, by decide, by decide⟩

/-- C6 (amended): `normalizeText` returns the empty string for
null/undefined/empty input; otherwise it lowercases, trims, collapses
white-space runs and only then strips the characters outside the kept
class, so the no-leading/no-trailing/no-run guarantee holds whenever the
input contains no stripped character (and the pre-strip stage always has
that shape). -/
theorem normalizeText_shape :
    normalizeText "" = "" ∧ normalizeTextOpt none = ""
      ∧ (∀ s : String,
          normalizeText s
            = String.mk (List.filter keepChar (collapseWs (trimWs (s.data.map Char.toLower)))))
      ∧ (∀ s : String, (∀ ch ∈ s.data, keepChar (Char.toLower ch) = true) →
          hasLeadingWs (normalizeText s) = false ∧ hasTrailingWs (normalizeText s) = false
            ∧ hasWsRun (normalizeText s) = false) := by
  have hpipe : ∀ s : String,
      normalizeText s
        = String.mk (List.filter keepChar (collapseWs (trimWs (s.data.map Char.toLower)))) := by
    intro s
    by_cases h : s = ""
    · subst h; decide
    · unfold normalizeText; rw [if_neg h]
  refine ⟨rfl, rfl, hpipe, ?_⟩
  intro s hk
  have hkept : ∀ ch ∈ collapseWs (trimWs (s.data.map Char.toLower)), keepChar ch = true := by
    intro ch hch
    rcases collapseWsAux_mem hch with rfl | hch'
    · decide
    · rcases List.mem_map.mp (mem_trimWs hch') with ⟨c0, hc0, rfl⟩
      exact hk c0 hc0
  have hfe : List.filter keepChar (collapseWs (trimWs (s.data.map Char.toLower)))
      = collapseWs (trimWs (s.data.map Char.toLower)) :=
    List.filter_eq_self.mpr hkept
  rw [hpipe s, hfe]
  refine ⟨?_, ?_, ?_⟩
  · exact hasLeadingWsL_collapseWs (trimWs_leading _)
  · exact hasTrailingWsL_collapseWsAux (trimWs_trailing _)
  · exact hasWsRunL_collapseWsAux

/-- Witness for the amended normalizer claim at a concrete input. -/
theorem normalizeText_shape_witness :
    hasLeadingWs (normalizeText "  Ab c  ") = false
      ∧ hasTrailingWs (normalizeText "  Ab c  ") = false
      ∧ hasWsRun (normalizeText "  Ab c  ") = false :=
  normalizeText_shape.2.2.2 "  Ab c  " (by decide)

/-! ## Helper lemmas: character split on a separator -/

theorem splitCharAux_ne_nil {sep : Char} : ∀ {l acc : List Char},
    splitCharAux sep l acc ≠ [] := by
  intro l
  induction l with
  | nil => intro acc; simp [splitCharAux]
  | cons c cs ih =>
    intro acc
    simp only [splitCharAux]
    by_cases hc : c = sep
    · rw [if_pos hc]; simp
    · rw [if_neg hc]; exact ih

theorem splitCharAux_head (sep : Char) : ∀ (l acc : List Char),
    (splitCharAux sep l acc).head?
      = some (acc.reverse ++ l.takeWhile fun ch => ch != sep) := by
  intro l
  induction l with
  | nil => intro acc; simp [splitCharAux]
  | cons c cs ih =>
    intro acc
    simp only [splitCharAux]
    by_cases hc : c = sep
    · rw [if_pos hc]
      have ht : ((c :: cs).takeWhile fun ch => ch != sep) = [] := by
        simp [List.takeWhile_cons, hc]
      simp [ht]
    · rw [if_neg hc]
      have ht : ((c :: cs).takeWhile fun ch => ch != sep)
          = c :: (cs.takeWhile fun ch => ch != sep) := by
        simp [List.takeWhile_cons, bne, hc]
      rw [ih (c :: acc), ht]
      simp

theorem splitCharAux_no_sep {sep : Char} : ∀ {l acc : List Char},
    (∀ c ∈ l, ¬(c = sep)) → splitCharAux sep l acc = [acc.reverse ++ l] := by
  intro l
  induction l with
  | nil => intro acc _; simp [splitCharAux]
  | cons c cs ih =>
    intro acc h
    have hc : ¬(c = sep) := h c (List.mem_cons_self _ _)
    simp only [splitCharAux]
    rw [if_neg hc, ih fun d hd => h d (List.mem_cons_of_mem _ hd)]
    simp

theorem splitCharAux_with_sep {sep : Char} : ∀ {l₁ : List Char} (l₂ acc : List Char),
    (∀ c ∈ l₁, ¬(c = sep)) →
      splitCharAux sep (l₁ ++ sep :: l₂) acc
        = (acc.reverse ++ l₁) :: splitCharAux sep l₂ [] := by
  intro l₁
  induction l₁ with
  | nil =>
    intro l₂ acc _
    simp [splitCharAux]
  | cons c cs ih =>
    intro l₂ acc h
    have hc : ¬(c = sep) := h c (List.mem_cons_self _ _)
    simp only [List.cons_append, splitCharAux]
    rw [if_neg hc]
    simp only [List.append_eq]
    rw [ih l₂ (c :: acc) fun d hd => h d (List.mem_cons_of_mem _ hd)]
    simp

theorem takeWhile_eq_self_of_no_sep {sep : Char} : ∀ {l : List Char},
    (∀ c ∈ l, ¬(c = sep)) → (l.takeWhile fun ch => ch != sep) = l := by
  intro l
  induction l with
  | nil => intro _; rfl
  | cons d ds ih =>
    intro h
    have hd : ¬(d = sep) := h d (List.mem_cons_self _ _)
    rw [List.takeWhile_cons_of_pos (by simpa using hd),
      ih fun c hc => h c (List.mem_cons_of_mem _ hc)]

theorem dropWhile_head_not (p : Char → Bool) : ∀ {l : List Char} {d : Char} {rest : List Char},
    l.dropWhile p = d :: rest → p d = false := by
  intro l
  induction l with
  | nil => intro d rest h; simp at h
  | cons c cs ih =>
    intro d rest h
    by_cases hc : p c
    · rw [List.dropWhile_cons_of_pos hc] at h
      exact ih h
    · rw [List.dropWhile_cons_of_neg hc] at h
      cases h
      simpa using hc

/-- C7 counterexample: the code splits the normalized email on every at
sign, so for an email with two of them the domain piece is the segment
between the first and the second, not the whole remainder the claim
requires. -/
theorem buildIndex_c7_counterexample :
    (buildIndex ⟨"1", "x", some "a@b@c", none, none⟩).emailDomain = "b"
      ∧ (buildIndex ⟨"1", "x", some "a@b@c", none, none⟩).emailDomain ≠ "b@c" :=
  ⟨by decide, by decide⟩

/-- C7 (amended): `emailLocal` is everything before the first at sign, and
`emailDomain` is the piece strictly between the first and the second at
sign (empty when the normalized email has no at sign). -/
theorem buildIndex_email_split (c : Contact) :
    (buildIndex c).emailLocal
        = String.mk ((normalizeTextOpt c.email).data.takeWhile fun ch => ch != '@')
      ∧ (buildIndex c).emailDomain
          = (if '@' ∈ (normalizeTextOpt c.email).data then
              String.mk (((((normalizeTextOpt c.email).data.dropWhile fun ch => ch != '@').drop 1).takeWhile fun ch => ch != '@'))
            else "") := by
  set e := normalizeTextOpt c.email with he
  have hL : (buildIndex c).emailLocal = (splitChar '@' e).getD 0 "" := rfl
  have hD : (buildIndex c).emailDomain = (splitChar '@' e).getD 1 "" := rfl
  by_cases hmem : '@' ∈ e.data
  · have hsplit : e.data
        = (e.data.takeWhile fun ch => ch != '@') ++ '@'
            :: ((e.data.dropWhile fun ch => ch != '@').drop 1) := by
      have h1 : e.data = (e.data.takeWhile fun ch => ch != '@')
          ++ (e.data.dropWhile fun ch => ch != '@') :=
        (List.takeWhile_append_dropWhile (fun ch => ch != '@') e.data).symm
      cases hdw : e.data.dropWhile fun ch => ch != '@' with
      | nil =>
        exfalso
        have : '@' ∈ (e.data.takeWhile fun ch => ch != '@') := by
          have h2 := h1
          rw [hdw, List.append_nil] at h2
          rwa [h2] at hmem
        have h3 := List.mem_takeWhile_imp this
        simp at h3
      | cons d rest =>
        have hd0 : (fun ch => ch != '@') d = false :=
          dropWhile_head_not (fun ch => ch != '@') hdw
        have hd : d = '@' := by simpa using hd0
        subst hd
        rw [hdw] at h1
        simpa using h1
    have hfree : ∀ ch ∈ (e.data.takeWhile fun ch => ch != '@'), ¬(ch = '@') := by
      intro ch hch
      have h3 := List.mem_takeWhile_imp hch
      simpa using h3
    have hparts : splitCharAux '@' e.data []
        = (e.data.takeWhile fun ch => ch != '@')
            :: splitCharAux '@' ((e.data.dropWhile fun ch => ch != '@').drop 1) [] := by
      conv in splitCharAux '@' e.data [] => rw [hsplit]
      rw [splitCharAux_with_sep _ _ hfree]
      simp
    constructor
    · rw [hL]
      unfold splitChar
      rw [hparts]
      simp
    · rw [hD]
      unfold splitChar
      rw [hparts, if_pos hmem]
      have hh := splitCharAux_head '@' ((e.data.dropWhile fun ch => ch != '@').drop 1) []
      cases htl : splitCharAux '@' ((e.data.dropWhile fun ch => ch != '@').drop 1) [] with
      | nil => exact absurd htl splitCharAux_ne_nil
      | cons x xs =>
        rw [htl] at hh
        simp only [List.head?_cons, Option.some.injEq] at hh
        rw [hh]
        simp [List.drop_one]
  · have hfree : ∀ ch ∈ e.data, ¬(ch = '@') := by
      intro ch hch heq
      exact hmem (heq ▸ hch)
    have hparts : splitCharAux '@' e.data [] = [e.data] := by
      have h0 : splitCharAux '@' e.data [] = [([] : List Char).reverse ++ e.data] :=
        splitCharAux_no_sep hfree
      simpa using h0
    have htk : (e.data.takeWhile fun ch => ch != '@') = e.data :=
      takeWhile_eq_self_of_no_sep hfree
    constructor
    · rw [hL]
      unfold splitChar
      rw [hparts, htk]
      rfl
    · rw [hD]
      unfold splitChar
      rw [hparts, if_neg hmem]
      rfl

/-! ## Helper lemmas: the classification loop -/

theorem classifyAux_eq_of_all (index : SearchIndex) : ∀ (toks : List String) (b : Bool),
    (∀ t ∈ toks, tokenMatches index t = true) →
    classifyAux index toks b
      = some (if b || toks.any (tokenPrefixHit index) then 1 else 2) := by
  intro toks
  induction toks with
  | nil => intro b _; simp [classifyAux]
  | cons t ts ih =>
    intro b h
    have ht : tokenMatches index t = true := h t (List.mem_cons_self _ _)
    have h1 : classifyAux index (t :: ts) b
        = classifyAux index ts (b || tokenPrefixHit index t) := by
      simp [classifyAux, ht]
    rw [h1, ih (b || tokenPrefixHit index t) fun u hu => h u (List.mem_cons_of_mem _ hu)]
    congr 1
    simp [Bool.or_assoc]

theorem classifyAux_none_iff (index : SearchIndex) : ∀ (toks : List String) (b : Bool),
    (classifyAux index toks b = none ↔ ∃ t ∈ toks, tokenMatches index t = false) := by
  intro toks
  induction toks with
  | nil => intro b; simp [classifyAux]
  | cons t ts ih =>
    intro b
    by_cases ht : tokenMatches index t
    · have h1 : classifyAux index (t :: ts) b
          = classifyAux index ts (b || tokenPrefixHit index t) := by
        simp [classifyAux, ht]
      rw [h1, ih]
      constructor
      · rintro ⟨u, hu, hum⟩
        exact ⟨u, List.mem_cons_of_mem _ hu, hum⟩
      · rintro ⟨u, hu, hum⟩
        rcases List.mem_cons.mp hu with rfl | hu'
        · rw [ht] at hum; cases hum
        · exact ⟨u, hu', hum⟩
    · have h1 : classifyAux index (t :: ts) b = none := by
        simp [classifyAux, ht]
      rw [h1]
      constructor
      · intro _
        exact ⟨t, List.mem_cons_self _ _, by simpa using ht⟩
      · intro _
        rfl

theorem classifyAux_values (index : SearchIndex) : ∀ (toks : List String) (b : Bool)
    (tier : Nat), classifyAux index toks b = some tier → tier = 1 ∨ tier = 2 := by
  intro toks
  induction toks with
  | nil =>
    intro b tier h
    cases b <;> simp [classifyAux] at h <;> omega
  | cons t ts ih =>
    intro b tier h
    by_cases ht : tokenMatches index t
    · have h1 : classifyAux index (t :: ts) b
          = classifyAux index ts (b || tokenPrefixHit index t) := by
        simp [classifyAux, ht]
      rw [h1] at h
      exact ih _ _ h
    · have h1 : classifyAux index (t :: ts) b = none := by
        simp [classifyAux, ht]
      rw [h1] at h
      cases h

/-- C2: `classifyMatch` fails exactly when some token matches nothing, and
on success the tier is 1 exactly when some token somewhere scored a prefix
hit, 2 exactly when none did. -/
theorem classifyMatch_characterization (toks : List String) (index : SearchIndex) :
    (classifyMatch toks index = none ↔ ∃ t ∈ toks, tokenMatches index t = false)
      ∧ ((∀ t ∈ toks, tokenMatches index t = true) →
          ((classifyMatch toks index = some 1 ↔ ∃ t ∈ toks, tokenPrefixHit index t = true)
            ∧ (classifyMatch toks index = some 2
                ↔ ∀ t ∈ toks, tokenPrefixHit index t = false))) := by
  constructor
  · exact classifyAux_none_iff index toks false
  · intro hall
    have h := classifyAux_eq_of_all index toks false hall
    unfold classifyMatch
    rw [h]
    simp only [Bool.false_or]
    by_cases hany : toks.any (tokenPrefixHit index) = true
    · rw [if_pos hany]
      obtain ⟨t, ht, hp⟩ := List.any_eq_true.mp hany
      constructor
      · simp only [Option.some.injEq]
        exact ⟨fun _ => ⟨t, ht, hp⟩, fun _ => trivial⟩
      · simp only [Option.some.injEq]
        constructor
        · intro h12; omega
        · intro hforall
          rw [hforall t ht] at hp
          cases hp
    · have hany' : toks.any (tokenPrefixHit index) = false := by simpa using hany
      rw [if_neg hany]
      have hforall := List.any_eq_false.mp hany'
      constructor
      · simp only [Option.some.injEq]
        constructor
        · intro h21; omega
        · rintro ⟨t, ht, hp⟩
          exact absurd hp (hforall t ht)
      · simp only [Option.some.injEq]
        exact ⟨fun _ t ht => by simpa using hforall t ht, fun _ => trivial⟩

/-- Witness for the classifier characterization at a concrete index. -/
theorem classifyMatch_characterization_witness :
    (classifyMatch ["sm"] (buildIndex ⟨"1", "Johnson Smith", none, none, none⟩) = some 1
        ↔ ∃ t ∈ ["sm"],
            tokenPrefixHit (buildIndex ⟨"1", "Johnson Smith", none, none, none⟩) t = true)
      ∧ (classifyMatch ["sm"] (buildIndex ⟨"1", "Johnson Smith", none, none, none⟩) = some 2
          ↔ ∀ t ∈ ["sm"],
              tokenPrefixHit (buildIndex ⟨"1", "Johnson Smith", none, none, none⟩) t = false) :=
  (classifyMatch_characterization ["sm"] (buildIndex ⟨"1", "Johnson Smith", none, none, none⟩)).2
    (by decide)

/-! ## Helper lemmas: matching primitives as list relations -/

theorem listStarts_iff : ∀ {t s : List Char}, listStarts t s = true ↔ t <+: s := by
  intro t
  induction t with
  | nil => intro s; simp [listStarts]
  | cons a as ih =>
    intro s
    cases s with
    | nil => simp [listStarts]
    | cons b bs =>
      simp only [listStarts, Bool.and_eq_true, beq_iff_eq, List.cons_prefix_cons]
      exact and_congr Iff.rfl ih

theorem strContains_subset {s t : String} (h : strContains s t = true) :
    t.data ⊆ s.data := by
  unfold strContains at h
  obtain ⟨i, _, hp⟩ := List.any_eq_true.mp h
  exact fun c hc => List.drop_subset i s.data (listStarts_iff.mp hp |>.subset hc)

/-- C9 counterexample: over an arbitrary `SearchIndex` whose `phoneDigits`
holds non-digit characters, classification can succeed at tier 2 while no
field satisfies its tier-2 condition, so the `name` fallback is taken. -/
theorem bestField_c9_counterexample :
    classifyMatch ["ab"] ⟨[], "", "", "", [], "xabz"⟩ = some 2
      ∧ (priorityList false).find? (fieldHasMatch ["ab"] ⟨[], "", "", "", [], "xabz"⟩ 2) = none
      ∧ bestFieldForTie ["ab"] ⟨[], "", "", "", [], "xabz"⟩ 2 false = Field.name :=
  ⟨by decide, by decide, by decide⟩

/-- C9 (amended): for every index whose `phoneDigits` consists of digits
only — which holds for every index `buildIndex` produces — a successful
classification guarantees some field satisfies its tier-scoped condition,
so `bestFieldForTie` returns the first such field in priority order and
the `name` fallback branch is never taken. -/
theorem bestField_no_fallback :
    (∀ (toks : List String) (index : SearchIndex) (tier : Nat) (nI : Bool),
        toks ≠ [] →
        (∀ ch ∈ index.phoneDigits.data, ch.isDigit = true) →
        classifyMatch toks index = some tier →
        (priorityList nI).find? (fieldHasMatch toks index tier)
          = some (bestFieldForTie toks index tier nI))
      ∧ ∀ (c : Contact), ∀ ch ∈ (buildIndex c).phoneDigits.data, ch.isDigit = true := by
  constructor
  · intro toks index tier nI hne hpd hcl
    have hall : ∀ t ∈ toks, tokenMatches index t = true := by
      intro t ht
      by_cases hm : tokenMatches index t = true
      · exact hm
      · exfalso
        have h0 : classifyMatch toks index = none :=
          (classifyAux_none_iff index toks false).mpr ⟨t, ht, by simpa using hm⟩
        rw [hcl] at h0
        cases h0
    have heq := classifyAux_eq_of_all index toks false hall
    unfold classifyMatch at hcl
    rw [heq] at hcl
    simp only [Bool.false_or, Option.some.injEq] at hcl
    have hex : ∃ f, f ∈ priorityList nI ∧ fieldHasMatch toks index tier f = true := by
      by_cases hany : toks.any (tokenPrefixHit index) = true
      · have htier : tier = 1 := by rw [if_pos hany] at hcl; omega
        subst htier
        obtain ⟨t, ht, hp⟩ := List.any_eq_true.mp hany
        have hp' := hp
        simp only [tokenPrefixHit, Bool.or_eq_true, Bool.and_eq_true] at hp'
        rcases hp' with (((h1 | h1) | h1) | h1) | ⟨h1, h2⟩
        · exact ⟨.name, by cases nI <;> simp [priorityList],
            List.any_eq_true.mpr ⟨t, ht, by simp [fieldTokenMatch, h1]⟩⟩
        · exact ⟨.company, by cases nI <;> simp [priorityList],
            List.any_eq_true.mpr ⟨t, ht, by simp [fieldTokenMatch, h1]⟩⟩
        · exact ⟨.email, by cases nI <;> simp [priorityList],
            List.any_eq_true.mpr ⟨t, ht, by simp [fieldTokenMatch, h1]⟩⟩
        · exact ⟨.email, by cases nI <;> simp [priorityList],
            List.any_eq_true.mpr ⟨t, ht, by simp [fieldTokenMatch, h1]⟩⟩
        · exact ⟨.phone, by cases nI <;> simp [priorityList],
            List.any_eq_true.mpr ⟨t, ht, by simp [fieldTokenMatch, h1, h2]⟩⟩
      · have hany' : toks.any (tokenPrefixHit index) = false := by simpa using hany
        have htier : tier = 2 := by rw [if_neg hany] at hcl; omega
        subst htier
        obtain ⟨t, ht⟩ := List.exists_mem_of_ne_nil toks hne
        have hnp : tokenPrefixHit index t = false := by
          have h0 := List.any_eq_false.mp hany' t ht
          simpa using h0
        have hsub : tokenSubstringHit index t = true := by
          have hm := hall t ht
          unfold tokenMatches at hm
          simpa [hnp] using hm
        unfold tokenSubstringHit hasSubstring at hsub
        obtain ⟨s, hsmem, hsc⟩ := List.any_eq_true.mp hsub
        have htne : t.data ≠ [] := by
          intro h0
          have hstart : strStartsWith index.emailLocal t = true := by
            unfold strStartsWith
            rw [h0]
            rfl
          have : tokenPrefixHit index t = true := by
            simp [tokenPrefixHit, hstart]
          rw [this] at hnp
          cases hnp
        simp only [List.mem_append, List.mem_cons, List.mem_singleton,
          List.not_mem_nil, or_false] at hsmem
        rcases hsmem with ((rfl | rfl | rfl) | hcw) | rfl
        · exact ⟨.name, by cases nI <;> simp [priorityList],
            List.any_eq_true.mpr ⟨t, ht, by simp [fieldTokenMatch, hsc]⟩⟩
        · exact ⟨.email, by cases nI <;> simp [priorityList],
            List.any_eq_true.mpr ⟨t, ht, by simp [fieldTokenMatch, hsc]⟩⟩
        · exact ⟨.email, by cases nI <;> simp [priorityList],
            List.any_eq_true.mpr ⟨t, ht, by simp [fieldTokenMatch, hsc]⟩⟩
        · exact ⟨.company, by cases nI <;> simp [priorityList],
            List.any_eq_true.mpr ⟨t, ht, by
              simp only [fieldTokenMatch]
              have : index.companyWords.any (fun w => strContains w t) = true :=
                List.any_eq_true.mpr ⟨s, hcw, hsc⟩
              simp [this]⟩⟩
        · refine ⟨.phone, by cases nI <;> simp [priorityList],
            List.any_eq_true.mpr ⟨t, ht, ?_⟩⟩
          have hdig : isAllDigits t = true := by
            have hsubs := strContains_subset hsc
            have hall' : t.data.all Char.isDigit = true :=
              List.all_eq_true.mpr fun c hc => hpd c (hsubs hc)
            simp [isAllDigits, htne, hall']
          simp [fieldTokenMatch, hdig, hsc]
    obtain ⟨f, hfmem, hfm⟩ := hex
    have hsome : ((priorityList nI).find? (fieldHasMatch toks index tier)).isSome := by
      rw [List.find?_isSome]
      exact ⟨f, hfmem, hfm⟩
    cases hf : (priorityList nI).find? (fieldHasMatch toks index tier) with
    | none => rw [hf] at hsome; cases hsome
    | some f0 =>
      unfold bestFieldForTie
      rw [hf]
  · intro c ch hch
    have h0 : ch ∈ ((c.phone.getD "").data.filter Char.isDigit) := hch
    exact (List.mem_filter.mp h0).2

/-- Witness for the amended tie-break claim at a concrete record. -/
theorem bestField_no_fallback_witness :
    (priorityList false).find?
        (fieldHasMatch ["sm"] (buildIndex ⟨"1", "Johnson Smith", none, none, none⟩) 1)
      = some (bestFieldForTie ["sm"] (buildIndex ⟨"1", "Johnson Smith", none, none, none⟩) 1 false) :=
  bestField_no_fallback.1 ["sm"] (buildIndex ⟨"1", "Johnson Smith", none, none, none⟩) 1 false
    (by decide) (by decide) (by decide)

/-! ## The minimum-length gate -/

theorem isDigit_not_ws {c : Char} (h : Char.isDigit c = true) : (!isWsChar c) = true := by
  cases hw : isWsChar c
  · rfl
  · exfalso
    have hc := hw
    simp only [isWsChar, Bool.or_eq_true, decide_eq_true_eq] at hc
    rcases hc with ((((rfl | rfl) | rfl) | rfl) | rfl) | rfl <;> exact absurd h (by decide)

theorem digit_le_nonSpace (query : String) : digitCount query ≤ nonSpaceCharCount query := by
  unfold digitCount nonSpaceCharCount
  rw [← List.countP_eq_length_filter]
  exact List.countP_mono_left fun c _ h => isDigit_not_ws h

/-- C10: every digit is a non-space character, so the digit clause of the
gate is redundant and removing it leaves `filterAndRank` unchanged. -/
theorem filterAndRank_digit_gate_redundant (σ : Cache) (contacts : List Contact)
    (query : String) :
    filterAndRank σ contacts query = filterAndRankNoDigitGate σ contacts query := by
  unfold filterAndRank filterAndRankNoDigitGate
  by_cases h : nonSpaceCharCount query < 3
  · rw [if_pos ⟨h, lt_of_le_of_lt (digit_le_nonSpace query) h⟩, if_pos h]
  · rw [if_neg (fun hc => h hc.1), if_neg h]

/-- C3: when the trimmed query has fewer than three non-space characters
and fewer than three digits, the record list comes back unchanged;
otherwise the pipeline past the gate (tokenize, classify, sort) is applied. -/
theorem filterAndRank_min_gate (σ : Cache) (contacts : List Contact) (query : String) :
    (nonSpaceCharCount query < 3 ∧ digitCount query < 3 →
        filterAndRank σ contacts query = (contacts, σ))
      ∧ (3 ≤ nonSpaceCharCount query ∨ 3 ≤ digitCount query →
          filterAndRank σ contacts query = applyFiltering σ contacts query) := by
  constructor
  · intro h
    unfold filterAndRank
    rw [if_pos h]
  · intro h
    unfold filterAndRank applyFiltering
    rw [if_neg (by omega)]

/-- Witness for the gate claim: a two-character query comes back unchanged,
a three-digit query goes through the filtering pipeline. -/
theorem filterAndRank_min_gate_witness :
    filterAndRank [] [⟨"1", "Al", none, none, none⟩] "ab"
        = ([⟨"1", "Al", none, none, none⟩], [])
      ∧ filterAndRank [] [⟨"1", "Al", none, none, none⟩] "555"
          = applyFiltering [] [⟨"1", "Al", none, none, none⟩] "555" :=
  ⟨(filterAndRank_min_gate [] [⟨"1", "Al", none, none, none⟩] "ab").1 (by decide),
   (filterAndRank_min_gate [] [⟨"1", "Al", none, none, none⟩] "555").2 (by decide)⟩

/-! ## Helper lemmas: the cache operations -/

theorem cacheGet_cacheSet_self (σ : Cache) (k : String) (v : SearchIndex) :
    cacheGet (cacheSet σ k v) k = some v := by
  induction σ with
  | nil => simp [cacheGet, cacheSet]
  | cons e es ih =>
    by_cases he : e.1 == k
    · simp [cacheSet, he, cacheGet]
    · simp only [cacheSet, he, Bool.false_eq_true, if_false]
      simpa [cacheGet, he] using ih

theorem cacheGet_cacheSet_ne (σ : Cache) (k k' : String) (v : SearchIndex)
    (h : k' ≠ k) : cacheGet (cacheSet σ k v) k' = cacheGet σ k' := by
  induction σ with
  | nil =>
    have hk : ¬((k : String) == k') = true := by
      simp only [beq_iff_eq]
      exact fun hk => h hk.symm
    simp [cacheGet, cacheSet, List.find?_cons, hk]
  | cons e es ih =>
    by_cases he : e.1 == k
    · have he1 : e.1 = k := by simpa using he
      have hke : ¬((k : String) == k') = true := by
        simp only [beq_iff_eq]
        exact fun hk => h hk.symm
      simp [cacheSet, he, cacheGet, List.find?_cons, hke, he1]
    · simp only [cacheSet, he, Bool.false_eq_true, if_false]
      by_cases he' : e.1 == k'
      · simp [cacheGet, List.find?_cons, he']
      · simpa [cacheGet, List.find?_cons, he'] using ih

theorem cacheGet_filter_none {σ : Cache} {p : String × SearchIndex → Bool} {k : String}
    (h : ∀ v, p (k, v) = false) : cacheGet (σ.filter p) k = none := by
  induction σ with
  | nil => rfl
  | cons e es ih =>
    by_cases hp : p e
    · rw [List.filter_cons_of_pos hp]
      have he : ¬(e.1 == k) = true := by
        simp only [beq_iff_eq]
        intro hk
        have he2 : e = (k, e.2) := by
          cases e
          simp at hk
          simp [hk]
        rw [he2, h e.2] at hp
        cases hp
      simpa [cacheGet, List.find?_cons, he] using ih
    · rw [List.filter_cons_of_neg hp]
      exact ih

theorem cacheGet_filter_of_none {σ : Cache} {p : String × SearchIndex → Bool} {k : String}
    (h : cacheGet σ k = none) : cacheGet (σ.filter p) k = none := by
  induction σ with
  | nil => rfl
  | cons e es ih =>
    by_cases he : e.1 == k
    · exfalso
      simp [cacheGet, List.find?_cons, he] at h
    · have h' : cacheGet es k = none := by
        simpa [cacheGet, List.find?_cons, he] using h
      by_cases hp : p e
      · rw [List.filter_cons_of_pos hp]
        simpa [cacheGet, List.find?_cons, he] using ih h'
      · rw [List.filter_cons_of_neg hp]
        exact ih h'

theorem cacheGet_filter_keep {σ : Cache} {p : String × SearchIndex → Bool} {k : String}
    (h : ∀ v, p (k, v) = true) : cacheGet (σ.filter p) k = cacheGet σ k := by
  induction σ with
  | nil => rfl
  | cons e es ih =>
    by_cases he : e.1 == k
    · have he1 : e.1 = k := by simpa using he
      have hpe : p e = true := by
        have he2 : e = (k, e.2) := by
          cases e
          simp at he1
          simp [he1]
        rw [he2]
        exact h e.2
      rw [List.filter_cons_of_pos hpe]
      simp [cacheGet, List.find?_cons, he]
    · by_cases hp : p e
      · rw [List.filter_cons_of_pos hp]
        simpa [cacheGet, List.find?_cons, he] using ih
      · rw [List.filter_cons_of_neg hp]
        simpa [cacheGet, List.find?_cons, he] using ih

theorem strStartsWith_append (a b : String) : strStartsWith (a ++ b) a = true := by
  unfold strStartsWith
  rw [listStarts_iff]
  exact ⟨b.data, by simp⟩

theorem getCacheKey_eq_append (c : Contact) :
    getCacheKey c = (c.id ++ ":") ++ toString (jsHash (searchableData c)) := by
  unfold getCacheKey
  rw [String.append_assoc]

theorem getMemoizedIndex_hit {σ : Cache} {c : Contact} {i : SearchIndex}
    (h : cacheGet σ (getCacheKey c) = some i) : getMemoizedIndex σ c = (i, σ) := by
  simp only [getMemoizedIndex]
  rw [h]

theorem getMemoizedIndex_miss {σ : Cache} {c : Contact}
    (h : cacheGet σ (getCacheKey c) = none) :
    getMemoizedIndex σ c
      = (buildIndex c,
          evictStale (cacheSet σ (getCacheKey c) (buildIndex c)) (c.id ++ ":")
            (getCacheKey c)) := by
  simp only [getMemoizedIndex]
  rw [h]

theorem getMemoizedIndex_self_entry (σ : Cache) (c : Contact) :
    cacheGet ((getMemoizedIndex σ c).2) (getCacheKey c)
      = some ((getMemoizedIndex σ c).1) := by
  cases hget : cacheGet σ (getCacheKey c) with
  | some i =>
    rw [getMemoizedIndex_hit hget]
    exact hget
  | none =>
    rw [getMemoizedIndex_miss hget]
    unfold evictStale
    exact
      (cacheGet_filter_keep fun v => by simp).trans (cacheGet_cacheSet_self _ _ _)

theorem getMemoizedIndex_preserves_none (σ : Cache) (c : Contact) {k : String}
    (hk : k ≠ getCacheKey c) (h : cacheGet σ k = none) :
    cacheGet ((getMemoizedIndex σ c).2) k = none := by
  cases hget : cacheGet σ (getCacheKey c) with
  | some i =>
    rw [getMemoizedIndex_hit hget]
    exact h
  | none =>
    rw [getMemoizedIndex_miss hget]
    unfold evictStale
    exact cacheGet_filter_of_none (by rw [cacheGet_cacheSet_ne _ _ _ _ hk]; exact h)

/-- C5 counterexample: the rolling fingerprints of names "Aa" and "BB"
collide, so changing the name and calling again serves the stale index
instead of the one `buildIndex` produces for the new field values. -/
theorem cache_c5_counterexample :
    (⟨"1", "Aa", none, none, none⟩ : Contact).name
        ≠ (⟨"1", "BB", none, none, none⟩ : Contact).name
      ∧ getCacheKey ⟨"1", "Aa", none, none, none⟩ = getCacheKey ⟨"1", "BB", none, none, none⟩
      ∧ (getMemoizedIndex ((getMemoizedIndex [] ⟨"1", "Aa", none, none, none⟩).2)
            ⟨"1", "BB", none, none, none⟩).1
          ≠ buildIndex ⟨"1", "BB", none, none, none⟩ :=
  ⟨by decide, by decide, by decide⟩

/-- C5 (amended): a repeated call with unchanged fields returns the same
index and the same cache (so the key count is stable); changing a
searchable field so that the cache key actually changes makes the next
call return the freshly built index, evict the prior entry for that id,
and leave at most the new key with that id in front.  (When the
fingerprint collides, the stale index is served — the counterexample.) -/
theorem getMemoizedIndex_cache_correct :
    (∀ (σ : Cache) (c : Contact),
        (getMemoizedIndex ((getMemoizedIndex σ c).2) c).1 = (getMemoizedIndex σ c).1
          ∧ (getMemoizedIndex ((getMemoizedIndex σ c).2) c).2 = (getMemoizedIndex σ c).2
          ∧ (getCacheStats ((getMemoizedIndex ((getMemoizedIndex σ c).2) c).2)).1
              = (getCacheStats ((getMemoizedIndex σ c).2)).1)
      ∧ (∀ (σ : Cache) (c c' : Contact), c'.id = c.id → getCacheKey c' ≠ getCacheKey c →
          cacheGet σ (getCacheKey c') = none →
          (getMemoizedIndex ((getMemoizedIndex σ c).2) c').1 = buildIndex c'
            ∧ cacheGet ((getMemoizedIndex ((getMemoizedIndex σ c).2) c').2) (getCacheKey c)
                = none
            ∧ ∀ k ∈ (getCacheStats ((getMemoizedIndex ((getMemoizedIndex σ c).2) c').2)).2,
                strStartsWith k (c'.id ++ ":") = true → k = getCacheKey c') := by
  constructor
  · intro σ c
    have hself := getMemoizedIndex_self_entry σ c
    have hsecond : getMemoizedIndex ((getMemoizedIndex σ c).2) c
        = ((getMemoizedIndex σ c).1, (getMemoizedIndex σ c).2) :=
      getMemoizedIndex_hit hself
    rw [hsecond]
    exact ⟨rfl, rfl, rfl⟩
  · intro σ c c' hid hkey hfresh
    have hnone1 : cacheGet ((getMemoizedIndex σ c).2) (getCacheKey c') = none :=
      getMemoizedIndex_preserves_none σ c hkey hfresh
    have hmiss : getMemoizedIndex ((getMemoizedIndex σ c).2) c'
        = (buildIndex c',
            evictStale (cacheSet ((getMemoizedIndex σ c).2) (getCacheKey c') (buildIndex c'))
              (c'.id ++ ":") (getCacheKey c')) :=
      getMemoizedIndex_miss hnone1
    refine ⟨by rw [hmiss], ?_, ?_⟩
    · rw [hmiss]
      unfold evictStale
      apply cacheGet_filter_none
      intro v
      have hstart : strStartsWith (getCacheKey c) (c'.id ++ ":") = true := by
        rw [hid, getCacheKey_eq_append]
        exact strStartsWith_append _ _
      have hne : (getCacheKey c != getCacheKey c') = true := by
        simp only [bne_iff_ne, ne_eq]
        exact fun h => hkey h.symm
      simp [hstart, hne]
    · rw [hmiss]
      intro k hk hks
      simp only [getCacheStats, List.mem_map] at hk
      obtain ⟨e, he, rfl⟩ := hk
      unfold evictStale at he
      have hpe := List.of_mem_filter he
      by_cases hek : e.1 = getCacheKey c'
      · exact hek
      · exfalso
        have hne : (e.1 != getCacheKey c') = true := by
          simpa [bne_iff_ne] using hek
        simp [hks, hne] at hpe

/-- Witness for the amended cache claim at a concrete field change whose
fingerprint does change. -/
theorem getMemoizedIndex_cache_correct_witness :
    (getMemoizedIndex ((getMemoizedIndex [] ⟨"1", "x", none, none, none⟩).2)
          ⟨"1", "y", none, none, none⟩).1
        = buildIndex ⟨"1", "y", none, none, none⟩
      ∧ cacheGet ((getMemoizedIndex ((getMemoizedIndex [] ⟨"1", "x", none, none, none⟩).2)
            ⟨"1", "y", none, none, none⟩).2)
          (getCacheKey ⟨"1", "x", none, none, none⟩) = none :=
  have h := getMemoizedIndex_cache_correct.2 [] ⟨"1", "x", none, none, none⟩
    ⟨"1", "y", none, none, none⟩ rfl (by decide) rfl
  ⟨h.1, h.2.1⟩

/-! ## Helper lemmas: the JS value layer and thrown exceptions -/

theorem bindE_ok {α β : Type} (a : α) (f : α → Except Unit β) :
    (do
      let x ← Except.ok a
      f x) = f a := rfl

theorem mapE_ok {α β : Type} (a : α) (f : α → β) :
    (Except.ok a : Except Unit α).map f = .ok (f a) := rfl

theorem normalizeTextJS_str (s : String) :
    normalizeTextJS (.vstr s) = .ok (normalizeText s) := by
  unfold normalizeTextJS
  by_cases h : s = ""
  · subst h; rfl
  · rw [if_neg (by simpa [jsFalsy] using h)]

theorem getMemoizedIndexJS_hit {σ : Cache} {c : ContactJS} {i : SearchIndex}
    (h : cacheGet σ (getCacheKeyJS c) = some i) : getMemoizedIndexJS σ c = .ok (i, σ) := by
  simp only [getMemoizedIndexJS]
  rw [h]

theorem getMemoizedIndexJS_miss {σ : Cache} {c : ContactJS}
    (h : cacheGet σ (getCacheKeyJS c) = none) :
    getMemoizedIndexJS σ c
      = (buildIndexJS c).map fun idx =>
          (idx, evictStale (cacheSet σ (getCacheKeyJS c) idx) (c.id ++ ":")
            (getCacheKeyJS c)) := by
  simp only [getMemoizedIndexJS]
  rw [h]

theorem getMemoizedIndexJS_ok (σ : Cache) {c : ContactJS}
    (h : ∃ s, c.name = JSVal.vstr s) :
    ∃ p, getMemoizedIndexJS σ c = .ok p := by
  obtain ⟨s, hs⟩ := h
  cases hget : cacheGet σ (getCacheKeyJS c) with
  | some i => exact ⟨(i, σ), getMemoizedIndexJS_hit hget⟩
  | none =>
    have hb : buildIndexJS c
        = .ok (mkIndex (normalizeText s) (normalizeTextOpt c.email)
            (normalizeTextOpt c.company) (normalizePhone c.phone)) := by
      unfold buildIndexJS
      rw [hs, normalizeTextJS_str]
      rfl
    rw [getMemoizedIndexJS_miss hget, hb, mapE_ok]
    exact ⟨_, rfl⟩

theorem rankResultsJS_ok (toks : List String) (nI : Bool) :
    ∀ (cs : List ContactJS) (σ : Cache), (∀ c ∈ cs, ∃ s, c.name = JSVal.vstr s) →
    ∃ p, rankResultsJS toks nI σ cs = .ok p
      ∧ ∀ it ∈ p.1, ∃ s, it.contact.name = JSVal.vstr s := by
  intro cs
  induction cs with
  | nil =>
    intro σ _
    exact ⟨([], σ), rfl, by simp⟩
  | cons c cs ih =>
    intro σ hnames
    obtain ⟨p, hp⟩ := getMemoizedIndexJS_ok σ (hnames c (List.mem_cons_self _ _))
    obtain ⟨q, hq, hqn⟩ := ih p.2 fun d hd => hnames d (List.mem_cons_of_mem _ hd)
    cases hcl : classifyMatch toks p.1 with
    | none =>
      have hrw : rankResultsJS toks nI σ (c :: cs) = rankResultsJS toks nI p.2 cs := by
        simp only [rankResultsJS]
        rw [hp, bindE_ok, hcl]
      refine ⟨q, ?_, hqn⟩
      rw [hrw]
      exact hq
    | some tier =>
      have hrw : rankResultsJS toks nI σ (c :: cs)
          = (do
              let rest ← rankResultsJS toks nI p.2 cs
              Except.ok (⟨c, tier, bestFieldForTie toks p.1 tier nI, p.1⟩ :: rest.1,
                rest.2)) := by
        simp only [rankResultsJS]
        rw [hp, bindE_ok, hcl]
      refine ⟨(⟨c, tier, bestFieldForTie toks p.1 tier nI, p.1⟩ :: q.1, q.2), ?_, ?_⟩
      · rw [hrw, hq, bindE_ok]
      · intro it hit
        rcases List.mem_cons.mp hit with rfl | hit'
        · exact hnames c (List.mem_cons_self _ _)
        · exact hqn it hit'

theorem rankCmpJS_ok {nI : Bool} {a b : RankItemJS} (h : ∃ s, a.contact.name = JSVal.vstr s) :
    ∃ v, rankCmpJS nI a b = .ok v := by
  obtain ⟨s, hs⟩ := h
  unfold rankCmpJS
  by_cases ht : a.tier ≠ b.tier
  · rw [if_pos ht]; exact ⟨_, rfl⟩
  · rw [if_neg ht]
    by_cases hpr : fieldPriority nI a.bestField ≠ fieldPriority nI b.bestField
    · rw [if_pos hpr]
      exact ⟨_, rfl⟩
    · rw [if_neg hpr]
      unfold localeCompareJS
      rw [hs]
      exact ⟨_, rfl⟩

theorem orderedInsertE_ok {cmpE : α → α → Except Unit Int} {a : α} :
    ∀ {l : List α}, (∀ b ∈ l, ∃ v, cmpE a b = .ok v) →
    ∃ l', orderedInsertE cmpE a l = .ok l' ∧ ∀ x ∈ l', x = a ∨ x ∈ l := by
  intro l
  induction l with
  | nil => exact fun _ => ⟨[a], rfl, by simp⟩
  | cons b bs ih =>
    intro h
    obtain ⟨v, hv⟩ := h b (List.mem_cons_self _ _)
    obtain ⟨l', hl', hmem⟩ := ih fun d hd => h d (List.mem_cons_of_mem _ hd)
    by_cases hle : v ≤ 0
    · refine ⟨a :: b :: bs, ?_, ?_⟩
      · simp only [orderedInsertE]
        rw [hv, bindE_ok, if_pos hle]
      · intro x hx
        rcases List.mem_cons.mp hx with rfl | hx'
        · exact Or.inl rfl
        · exact Or.inr hx'
    · refine ⟨b :: l', ?_, ?_⟩
      · simp only [orderedInsertE]
        rw [hv, bindE_ok, if_neg hle, hl', bindE_ok]
      · intro x hx
        rcases List.mem_cons.mp hx with rfl | hx'
        · exact Or.inr (List.mem_cons_self _ _)
        · rcases hmem x hx' with rfl | hx''
          · exact Or.inl rfl
          · exact Or.inr (List.mem_cons_of_mem _ hx'')

theorem sortE_ok {cmpE : α → α → Except Unit Int} :
    ∀ {l : List α}, (∀ x ∈ l, ∀ y, ∃ v, cmpE x y = .ok v) →
    ∃ l', sortE cmpE l = .ok l' ∧ ∀ x ∈ l', x ∈ l := by
  intro l
  induction l with
  | nil => exact fun _ => ⟨[], rfl, by simp⟩
  | cons a as ih =>
    intro h
    obtain ⟨l', hl', hmem⟩ := ih fun x hx => h x (List.mem_cons_of_mem _ hx)
    obtain ⟨l'', hl'', hmem'⟩ :=
      orderedInsertE_ok fun b _ => h a (List.mem_cons_self _ _) b
    refine ⟨l'', ?_, ?_⟩
    · simp only [sortE]
      rw [hl', bindE_ok]
      exact hl''
    · intro x hx
      rcases hmem' x hx with rfl | hx'
      · exact List.mem_cons_self _ _
      · exact List.mem_cons_of_mem _ (hmem x hx')

theorem filterAndRankJS_ok_of_names (σ : Cache) (contacts : List ContactJS) (query : String)
    (hnames : ∀ c ∈ contacts, ∃ s, c.name = JSVal.vstr s) :
    ∃ res, filterAndRankJS σ contacts query = .ok res := by
  unfold filterAndRankJS
  by_cases hgate : nonSpaceCharCount query < 3 ∧ digitCount query < 3
  · rw [if_pos hgate]
    exact ⟨_, rfl⟩
  · rw [if_neg hgate]
    by_cases hemp : (tokenize query).isEmpty
    · rw [if_pos hemp]
      exact ⟨_, rfl⟩
    · rw [if_neg hemp]
      obtain ⟨p, hp, hpn⟩ :=
        rankResultsJS_ok (tokenize query) (numericIntentOf (tokenize query)) contacts σ hnames
      have hs : ∃ l', sortE (rankCmpJS (numericIntentOf (tokenize query))) p.1 = .ok l'
          ∧ ∀ x ∈ l', x ∈ p.1 :=
        sortE_ok fun x hx y => rankCmpJS_ok (hpn x hx)
      obtain ⟨l', hl', _⟩ := hs
      refine ⟨(l'.map RankItemJS.contact, p.2), ?_⟩
      show (do
          let res ← rankResultsJS (tokenize query) (numericIntentOf (tokenize query)) σ contacts
          let sorted ← sortE (rankCmpJS (numericIntentOf (tokenize query))) res.1
          Except.ok (sorted.map RankItemJS.contact, res.2))
        = Except.ok (l'.map RankItemJS.contact, p.2)
      rw [hp, bindE_ok, hl', bindE_ok]

set_option maxRecDepth 100000 in
/-- C4 counterexample: with two surviving tied records whose `name` is
null, the sort comparator dereferences `name.localeCompare` and throws;
`normalizeText` on a truthy non-string value throws at `toLowerCase`; a
null query throws at `query.trim()` before any early return; and a null
record list reaches the `for … of` loop once the gate passes and a token
exists, and throws there. -/
theorem noThrow_c4_counterexample :
    filterAndRankJS []
        [⟨"1", .vnull, some "abc@x.com", none, none⟩,
         ⟨"2", .vnull, some "abc@y.com", none, none⟩] "abc" = .error ()
      ∧ normalizeTextJS (.vnum 5) = .error ()
      ∧ filterAndRankJSTop [] (some []) .vnull = .error ()
      ∧ filterAndRankJSTop [] none (.vstr "abc") = .error () :=
  ⟨rfl, rfl, rfl, rfl⟩

/-- C4 (amended): no operation of the core throws for null/undefined or
empty inputs of the optional fields, for empty record lists, or for empty
or sub-threshold queries — in the latter case even a null record list is
returned untouched; and `filterAndRank` never throws when the query is a
string and the record list is an actual list whose every record's `name`
is a string, as the types require. A null or non-string query throws at
`query.trim()`, a null record list throws at the classification loop once
the gate passes and a token exists, a null, undefined or non-string `name`
can reach a throwing `localeCompare` receiver in the sort comparator, and
a truthy non-string field value makes `normalizeText` itself throw. -/
theorem noThrow_amended :
    (∀ s : String, normalizeTextJS (.vstr s) = .ok (normalizeText s))
      ∧ normalizeTextJS .vnull = .ok ""
      ∧ normalizeTextJS .vundef = .ok ""
      ∧ (∀ (σ : Cache) (contacts : Option (List ContactJS)) (q : String),
          nonSpaceCharCount q < 3 ∧ digitCount q < 3 →
          filterAndRankJSTop σ contacts (.vstr q) = .ok (contacts, σ))
      ∧ ∀ (σ : Cache) (contacts : List ContactJS) (q : String),
          (∀ c ∈ contacts, ∃ s, c.name = JSVal.vstr s) →
          ∃ res, filterAndRankJSTop σ (some contacts) (.vstr q) = .ok res := by
  refine ⟨normalizeTextJS_str, rfl, rfl, ?_, ?_⟩
  · intro σ contacts q hgate
    simp only [filterAndRankJSTop]
    rw [if_pos hgate]
  · intro σ contacts q hnames
    simp only [filterAndRankJSTop]
    by_cases hgate : nonSpaceCharCount q < 3 ∧ digitCount q < 3
    · rw [if_pos hgate]
      exact ⟨_, rfl⟩
    · rw [if_neg hgate]
      by_cases hemp : (tokenize q).isEmpty
      · rw [if_pos hemp]
        exact ⟨_, rfl⟩
      · rw [if_neg hemp]
        obtain ⟨res, hres⟩ := filterAndRankJS_ok_of_names σ contacts q hnames
        rw [hres, mapE_ok]
        exact ⟨_, rfl⟩

/-- Witness for the amended no-throw claim: a sub-threshold query returns
even a null record list untouched, and a concrete well-typed record list
with a passing query produces a result without throwing. -/
theorem noThrow_amended_witness :
    filterAndRankJSTop [] none (.vstr "ab") = .ok (none, [])
      ∧ ∃ res, filterAndRankJSTop []
          (some [⟨"1", .vstr "Bob", none, none, none⟩]) (.vstr "bob") = .ok res :=
  ⟨noThrow_amended.2.2.2.1 [] none "ab" (by decide),
   noThrow_amended.2.2.2.2 [] [⟨"1", .vstr "Bob", none, none, none⟩] "bob"
     (by
       intro c hc
       rw [List.mem_singleton] at hc
       subst hc
       exact ⟨"Bob", rfl⟩)⟩

/-! ## Helper lemmas: the comparator realizes the specified key order -/

theorem cmpChars_eq_iff : ∀ {a b : List Char}, cmpChars a b = .eq ↔ a = b := by
  intro a
  induction a with
  | nil =>
    intro b
    cases b <;> simp [cmpChars]
  | cons x xs ih =>
    intro b
    cases b with
    | nil => simp [cmpChars]
    | cons y ys =>
      simp only [cmpChars]
      by_cases hxy : x < y
      · rw [if_pos hxy]
        constructor
        · intro h; cases h
        · intro h
          injection h with h1 _
          exact absurd (h1 ▸ hxy) (lt_irrefl _)
      · by_cases hyx : y < x
        · rw [if_neg hxy, if_pos hyx]
          constructor
          · intro h; cases h
          · intro h
            injection h with h1 _
            exact absurd (h1 ▸ hyx) (lt_irrefl _)
        · have hxy' : x = y := le_antisymm (not_lt.mp hyx) (not_lt.mp hxy)
          subst hxy'
          simp [if_neg (lt_irrefl x), ih]

theorem cmpChars_gt_iff_lt : ∀ {a b : List Char}, cmpChars a b = .gt ↔ cmpChars b a = .lt := by
  intro a
  induction a with
  | nil =>
    intro b
    cases b <;> simp [cmpChars]
  | cons x xs ih =>
    intro b
    cases b with
    | nil => simp [cmpChars]
    | cons y ys =>
      by_cases hxy : x < y
      · have hL : cmpChars (x :: xs) (y :: ys) = .lt := by simp [cmpChars, hxy]
        have hR : cmpChars (y :: ys) (x :: xs) = .gt := by simp [cmpChars, asymm hxy, hxy]
        rw [hL, hR]
        simp
      · by_cases hyx : y < x
        · have hL : cmpChars (x :: xs) (y :: ys) = .gt := by simp [cmpChars, hxy, hyx]
          have hR : cmpChars (y :: ys) (x :: xs) = .lt := by simp [cmpChars, hyx]
          rw [hL, hR]
          simp
        · have hL : cmpChars (x :: xs) (y :: ys) = cmpChars xs ys := by
            simp [cmpChars, hxy, hyx]
          have hR : cmpChars (y :: ys) (x :: xs) = cmpChars ys xs := by
            simp [cmpChars, hxy, hyx]
          rw [hL, hR, ih]

theorem cmpChars_lt_trans : ∀ {a b c : List Char},
    cmpChars a b = .lt → cmpChars b c = .lt → cmpChars a c = .lt := by
  intro a
  induction a with
  | nil =>
    intro b c hab hbc
    cases c with
    | nil =>
      cases b with
      | nil => cases hab
      | cons y ys => cases hbc
    | cons z zs => rfl
  | cons x xs ih =>
    intro b c hab hbc
    cases b with
    | nil => cases hab
    | cons y ys =>
      cases c with
      | nil => cases hbc
      | cons z zs =>
        simp only [cmpChars] at hab hbc ⊢
        by_cases hxy : x < y
        · by_cases hyz : y < z
          · rw [if_pos (lt_trans hxy hyz)]
          · by_cases hzy : z < y
            · rw [if_neg hyz, if_pos hzy] at hbc
              cases hbc
            · have hyz' : y = z := le_antisymm (not_lt.mp hzy) (not_lt.mp hyz)
              rw [← hyz']
              rw [if_pos hxy]
        · by_cases hyx : y < x
          · rw [if_neg hxy, if_pos hyx] at hab
            cases hab
          · have hxy' : x = y := le_antisymm (not_lt.mp hyx) (not_lt.mp hxy)
            subst hxy'
            rw [if_neg hxy, if_neg hyx] at hab
            by_cases hxz : x < z
            · rw [if_pos hxz]
            · by_cases hzx : z < x
              · rw [if_neg hxz, if_pos hzx] at hbc
                cases hbc
              · rw [if_neg hxz, if_neg hzx] at hbc
                rw [if_neg hxz, if_neg hzx]
                exact ih hab hbc

theorem keyLt_trichotomy (x y : Nat × Nat × List Char) : keyLt x y ∨ x = y ∨ keyLt y x := by
  obtain ⟨x1, x2, x3⟩ := x
  obtain ⟨y1, y2, y3⟩ := y
  simp only [keyLt]
  rcases Nat.lt_trichotomy x1 y1 with h1 | h1 | h1
  · exact Or.inl (Or.inl h1)
  · rcases Nat.lt_trichotomy x2 y2 with h2 | h2 | h2
    · exact Or.inl (Or.inr ⟨h1, Or.inl h2⟩)
    · cases hc : cmpChars x3 y3 with
      | lt => exact Or.inl (Or.inr ⟨h1, Or.inr ⟨h2, rfl⟩⟩)
      | eq =>
        have h3 : x3 = y3 := cmpChars_eq_iff.mp hc
        exact Or.inr (Or.inl (by rw [h1, h2, h3]))
      | gt =>
        have h3 : cmpChars y3 x3 = .lt := cmpChars_gt_iff_lt.mp hc
        exact Or.inr (Or.inr (Or.inr ⟨h1.symm, Or.inr ⟨h2.symm, h3⟩⟩))
    · exact Or.inr (Or.inr (Or.inr ⟨h1.symm, Or.inl h2⟩))
  · exact Or.inr (Or.inr (Or.inl h1))

theorem keyLt_trans {x y z : Nat × Nat × List Char}
    (hxy : keyLt x y) (hyz : keyLt y z) : keyLt x z := by
  obtain ⟨x1, x2, x3⟩ := x
  obtain ⟨y1, y2, y3⟩ := y
  obtain ⟨z1, z2, z3⟩ := z
  simp only [keyLt] at hxy hyz ⊢
  rcases hxy with h1 | ⟨h1, h2 | ⟨h2, h3⟩⟩ <;>
    rcases hyz with g1 | ⟨g1, g2 | ⟨g2, g3⟩⟩
  · exact Or.inl (by omega)
  · exact Or.inl (by omega)
  · exact Or.inl (by omega)
  · exact Or.inl (by omega)
  · exact Or.inr ⟨by omega, Or.inl (by omega)⟩
  · exact Or.inr ⟨by omega, Or.inl (by omega)⟩
  · exact Or.inl (by omega)
  · exact Or.inr ⟨by omega, Or.inl (by omega)⟩
  · exact Or.inr ⟨by omega, Or.inr ⟨by omega, cmpChars_lt_trans h3 g3⟩⟩

theorem fieldPriority_eq_indexOf (nI : Bool) (f : Field) :
    fieldPriority nI f = (priorityList nI).indexOf f := by
  cases nI <;> cases f <;> rfl

theorem rankCmp_lt_iff (nI : Bool) (a b : RankItem) :
    rankCmp nI a b < 0 ↔ keyLt (specKey nI a) (specKey nI b) := by
  have hidx : ∀ f, (priorityList nI).indexOf f = fieldPriority nI f := fun f =>
    (fieldPriority_eq_indexOf nI f).symm
  simp only [rankCmp, specKey, keyLt, hidx]
  by_cases ht : a.tier ≠ b.tier
  · rw [if_pos ht]
    constructor
    · intro h
      exact Or.inl (by omega)
    · rintro (h | ⟨h, _⟩)
      · omega
      · exact absurd h ht
  · rw [if_neg ht]
    have htier : a.tier = b.tier := not_ne_iff.mp ht
    by_cases hp : fieldPriority nI a.bestField ≠ fieldPriority nI b.bestField
    · rw [if_pos hp]
      constructor
      · intro h
        exact Or.inr ⟨htier, Or.inl (by omega)⟩
      · rintro (h | ⟨h1, h2 | ⟨h2, h3⟩⟩)
        · omega
        · omega
        · exact absurd h2 hp
    · rw [if_neg hp]
      have hprio : fieldPriority nI a.bestField = fieldPriority nI b.bestField :=
        not_ne_iff.mp hp
      unfold localeCompareBase
      cases hc : cmpChars (lowerChars a.contact.name) (lowerChars b.contact.name) with
      | lt =>
        constructor
        · intro _
          exact Or.inr ⟨htier, Or.inr ⟨hprio, rfl⟩⟩
        · intro _
          decide
      | eq =>
        constructor
        · intro h
          exact absurd h (by decide)
        · rintro (h | ⟨h1, h2 | ⟨h2, h3⟩⟩)
          · omega
          · omega
          · cases h3
      | gt =>
        constructor
        · intro h
          exact absurd h (by decide)
        · rintro (h | ⟨h1, h2 | ⟨h2, h3⟩⟩)
          · omega
          · omega
          · cases h3

theorem rankCmp_eq_iff (nI : Bool) (a b : RankItem) :
    rankCmp nI a b = 0 ↔ specKey nI a = specKey nI b := by
  have hidx : ∀ f, (priorityList nI).indexOf f = fieldPriority nI f := fun f =>
    (fieldPriority_eq_indexOf nI f).symm
  simp only [rankCmp, specKey, hidx, Prod.mk.injEq]
  by_cases ht : a.tier ≠ b.tier
  · rw [if_pos ht]
    constructor
    · intro h
      omega
    · rintro ⟨h, _⟩
      exact absurd h ht
  · rw [if_neg ht]
    have htier : a.tier = b.tier := not_ne_iff.mp ht
    by_cases hp : fieldPriority nI a.bestField ≠ fieldPriority nI b.bestField
    · rw [if_pos hp]
      constructor
      · intro h
        omega
      · rintro ⟨_, h2, _⟩
        exact absurd h2 hp
    · rw [if_neg hp]
      have hprio : fieldPriority nI a.bestField = fieldPriority nI b.bestField :=
        not_ne_iff.mp hp
      unfold localeCompareBase
      cases hc : cmpChars (lowerChars a.contact.name) (lowerChars b.contact.name) with
      | lt =>
        constructor
        · intro h
          exact absurd h (by decide)
        · rintro ⟨_, _, h3⟩
          rw [cmpChars_eq_iff.mpr h3] at hc
          cases hc
      | eq =>
        constructor
        · intro _
          exact ⟨htier, hprio, cmpChars_eq_iff.mp hc⟩
        · intro _
          rfl
      | gt =>
        constructor
        · intro h
          exact absurd h (by decide)
        · rintro ⟨_, _, h3⟩
          rw [cmpChars_eq_iff.mpr h3] at hc
          cases hc

theorem rankCmp_sortLE_total (nI : Bool) (p q : Nat × RankItem) :
    sortLE (rankCmp nI) p q ∨ sortLE (rankCmp nI) q p := by
  simp only [sortLE]
  rcases keyLt_trichotomy (specKey nI p.2) (specKey nI q.2) with h | h | h
  · exact Or.inl (Or.inl ((rankCmp_lt_iff nI p.2 q.2).mpr h))
  · rcases Nat.le_total p.1 q.1 with hle | hle
    · exact Or.inl (Or.inr ⟨(rankCmp_eq_iff nI p.2 q.2).mpr h, hle⟩)
    · exact Or.inr (Or.inr ⟨(rankCmp_eq_iff nI q.2 p.2).mpr h.symm, hle⟩)
  · exact Or.inr (Or.inl ((rankCmp_lt_iff nI q.2 p.2).mpr h))

theorem rankCmp_sortLE_trans (nI : Bool) (p q r : Nat × RankItem)
    (hpq : sortLE (rankCmp nI) p q) (hqr : sortLE (rankCmp nI) q r) :
    sortLE (rankCmp nI) p r := by
  simp only [sortLE] at hpq hqr ⊢
  rcases hpq with h1 | ⟨h1, h2⟩ <;> rcases hqr with g1 | ⟨g1, g2⟩
  · exact Or.inl ((rankCmp_lt_iff nI p.2 r.2).mpr
      (keyLt_trans ((rankCmp_lt_iff nI p.2 q.2).mp h1) ((rankCmp_lt_iff nI q.2 r.2).mp g1)))
  · have hz := (rankCmp_eq_iff nI q.2 r.2).mp g1
    exact Or.inl ((rankCmp_lt_iff nI p.2 r.2).mpr
      (hz ▸ (rankCmp_lt_iff nI p.2 q.2).mp h1))
  · have hz := (rankCmp_eq_iff nI p.2 q.2).mp h1
    exact Or.inl ((rankCmp_lt_iff nI p.2 r.2).mpr
      (hz ▸ (rankCmp_lt_iff nI q.2 r.2).mp g1))
  · exact Or.inr ⟨(rankCmp_eq_iff nI p.2 r.2).mpr
      (((rankCmp_eq_iff nI p.2 q.2).mp h1).trans ((rankCmp_eq_iff nI q.2 r.2).mp g1)),
      le_trans h2 g2⟩

/-! ## Helper lemmas: the classification pass under a faithful cache -/

theorem cacheGet_some_mem {σ : Cache} {k : String} {v : SearchIndex}
    (h : cacheGet σ k = some v) : ∃ e, e ∈ σ ∧ e.1 = k ∧ e.2 = v := by
  unfold cacheGet at h
  cases hf : σ.find? fun e => e.1 == k with
  | none => rw [hf] at h; cases h
  | some e =>
    rw [hf] at h
    have he1 : e.1 = k := by simpa using List.find?_some hf
    have hmem : e ∈ σ := List.mem_of_find?_eq_some hf
    exact ⟨e, hmem, he1, by simpa using h⟩

theorem mem_cacheSet {e : String × SearchIndex} : ∀ {σ : Cache} {k : String} {v : SearchIndex},
    e ∈ cacheSet σ k v → e = (k, v) ∨ e ∈ σ := by
  intro σ
  induction σ with
  | nil => intro k v h; simpa [cacheSet] using h
  | cons f fs ih =>
    intro k v h
    by_cases hf : f.1 == k
    · simp only [cacheSet] at h
      rw [if_pos hf] at h
      rcases List.mem_cons.mp h with rfl | h'
      · exact Or.inl rfl
      · exact Or.inr (List.mem_cons_of_mem _ h')
    · simp only [cacheSet] at h
      rw [if_neg hf] at h
      rcases List.mem_cons.mp h with rfl | h'
      · exact Or.inr (List.mem_cons_self _ _)
      · rcases ih h' with h'' | h''
        · exact Or.inl h''
        · exact Or.inr (List.mem_cons_of_mem _ h'')

theorem getMemoizedIndex_cache_mem {σ : Cache} {c : Contact} {e : String × SearchIndex}
    (h : e ∈ (getMemoizedIndex σ c).2) :
    e ∈ σ ∨ e = (getCacheKey c, buildIndex c) := by
  cases hget : cacheGet σ (getCacheKey c) with
  | some i =>
    rw [getMemoizedIndex_hit hget] at h
    exact Or.inl h
  | none =>
    rw [getMemoizedIndex_miss hget] at h
    have h1 : e ∈ cacheSet σ (getCacheKey c) (buildIndex c) := by
      unfold evictStale at h
      exact (List.mem_filter.mp h).1
    rcases mem_cacheSet h1 with h2 | h2
    · exact Or.inr h2
    · exact Or.inl h2

theorem getMemoizedIndex_faithful {σ : Cache} {cs0 : List Contact} {c : Contact}
    (hσ : cacheFaithfulFor σ cs0) (hc : c ∈ cs0) :
    (getMemoizedIndex σ c).1 = buildIndex c := by
  cases hget : cacheGet σ (getCacheKey c) with
  | some i =>
    rw [getMemoizedIndex_hit hget]
    obtain ⟨e, hmem, he1, he2⟩ := cacheGet_some_mem hget
    rw [← he2]
    exact hσ e hmem c hc he1
  | none => rw [getMemoizedIndex_miss hget]

theorem cacheFaithfulFor_after {σ : Cache} {cs0 : List Contact} {c : Contact}
    (hσ : cacheFaithfulFor σ cs0) (hc : c ∈ cs0) (hinj : keysInjectiveOn cs0) :
    cacheFaithfulFor ((getMemoizedIndex σ c).2) cs0 := by
  intro e he c' hc' hkey
  rcases getMemoizedIndex_cache_mem he with h | h
  · exact hσ e h c' hc' hkey
  · subst h
    exact hinj c hc c' hc' hkey

theorem rankResults_eq (toks : List String) (nI : Bool) :
    ∀ (cs : List Contact) (σ : Cache) (cs0 : List Contact),
      (∀ c ∈ cs, c ∈ cs0) → cacheFaithfulFor σ cs0 → keysInjectiveOn cs0 →
      (rankResults toks nI σ cs).1 = cs.filterMap (rankOf toks nI)
        ∧ cacheFaithfulFor ((rankResults toks nI σ cs).2) cs0 := by
  intro cs
  induction cs with
  | nil =>
    intro σ cs0 _ hσ _
    exact ⟨rfl, hσ⟩
  | cons c cs ih =>
    intro σ cs0 hsub hσ hinj
    have hcmem : c ∈ cs0 := hsub c (List.mem_cons_self _ _)
    have hidx : (getMemoizedIndex σ c).1 = buildIndex c :=
      getMemoizedIndex_faithful hσ hcmem
    have hσ' : cacheFaithfulFor ((getMemoizedIndex σ c).2) cs0 :=
      cacheFaithfulFor_after hσ hcmem hinj
    obtain ⟨ih1, ih2⟩ := ih ((getMemoizedIndex σ c).2) cs0
      (fun d hd => hsub d (List.mem_cons_of_mem _ hd)) hσ' hinj
    cases hcl : classifyMatch toks (buildIndex c) with
    | none =>
      have hrw : rankResults toks nI σ (c :: cs)
          = rankResults toks nI ((getMemoizedIndex σ c).2) cs := by
        simp only [rankResults, hidx, hcl]
      have hfm : (c :: cs).filterMap (rankOf toks nI) = cs.filterMap (rankOf toks nI) := by
        simp [List.filterMap_cons, rankOf, hcl]
      rw [hrw, hfm]
      exact ⟨ih1, ih2⟩
    | some tier =>
      have hrw1 : (rankResults toks nI σ (c :: cs)).1
          = ⟨c, tier, bestFieldForTie toks (buildIndex c) tier nI, buildIndex c⟩
              :: (rankResults toks nI ((getMemoizedIndex σ c).2) cs).1 := by
        simp only [rankResults, hidx, hcl]
      have hrw2 : (rankResults toks nI σ (c :: cs)).2
          = (rankResults toks nI ((getMemoizedIndex σ c).2) cs).2 := by
        simp only [rankResults, hidx, hcl]
      have hfm : (c :: cs).filterMap (rankOf toks nI)
          = ⟨c, tier, bestFieldForTie toks (buildIndex c) tier nI, buildIndex c⟩
              :: cs.filterMap (rankOf toks nI) := by
        simp [List.filterMap_cons, rankOf, hcl]
      rw [hrw1, hrw2, hfm, ih1]
      exact ⟨rfl, ih2⟩

theorem rankOf_map_contact (toks : List String) (nI : Bool) : ∀ (cs : List Contact),
    (cs.filterMap (rankOf toks nI)).map RankItem.contact
      = cs.filter fun c => (classifyMatch toks (buildIndex c)).isSome := by
  intro cs
  induction cs with
  | nil => rfl
  | cons c cs ih =>
    cases hcl : classifyMatch toks (buildIndex c) with
    | none => simp [List.filterMap_cons, List.filter_cons, rankOf, hcl, ih]
    | some tier => simp [List.filterMap_cons, List.filter_cons, rankOf, hcl, ih]

/-! ## Helper lemmas: the stable sort semantics -/

theorem le_fst_of_mem_enumFrom {α : Type} {p : Nat × α} : ∀ {l : List α} {n : Nat},
    p ∈ l.enumFrom n → n ≤ p.1 := by
  intro l
  induction l with
  | nil => intro n h; cases h
  | cons a as ih =>
    intro n h
    rw [List.enumFrom_cons] at h
    rcases List.mem_cons.mp h with rfl | h'
    · exact le_refl _
    · exact le_trans (Nat.le_succ _) (ih h')

theorem snd_mem_of_mem_enumFrom {α : Type} {p : Nat × α} {l : List α} {n : Nat}
    (h : p ∈ l.enumFrom n) : p.2 ∈ l := by
  have h1 : p.2 ∈ (l.enumFrom n).map Prod.snd := List.mem_map_of_mem Prod.snd h
  rwa [List.enumFrom_map_snd] at h1

theorem pairwise_enumFrom_of_pairwise {α : Type} {cmp : α → α → Int} : ∀ {l : List α},
    l.Pairwise (fun a b => cmp a b ≤ 0) →
    ∀ (n : Nat), (l.enumFrom n).Pairwise (sortLE cmp) := by
  intro l
  induction l with
  | nil => intro _ n; exact List.Pairwise.nil
  | cons a as ih =>
    intro h n
    rw [List.enumFrom_cons]
    refine List.pairwise_cons.mpr ⟨?_, ih (List.pairwise_cons.mp h).2 (n + 1)⟩
    intro q hq
    have hq2 : q.2 ∈ as := snd_mem_of_mem_enumFrom hq
    have hle : cmp a q.2 ≤ 0 := (List.pairwise_cons.mp h).1 q.2 hq2
    have hn : n + 1 ≤ q.1 := le_fst_of_mem_enumFrom hq
    simp only [sortLE]
    rcases lt_or_eq_of_le hle with hlt | heq
    · exact Or.inl hlt
    · exact Or.inr ⟨heq, by omega⟩

theorem jsStableSort_spec {α : Type} (cmp : α → α → Int) (l : List α)
    (htot : ∀ p q : Nat × α, sortLE cmp p q ∨ sortLE cmp q p)
    (htrans : ∀ p q r : Nat × α, sortLE cmp p q → sortLE cmp q r → sortLE cmp p r) :
    ∃ l' : List (Nat × α), jsStableSort cmp l = l'.map Prod.snd
      ∧ l'.Perm l.enum ∧ l'.Pairwise (sortLE cmp)
      ∧ l'.Pairwise fun p q => p.1 ≠ q.1 := by
  haveI : IsTotal (Nat × α) (sortLE cmp) := ⟨htot⟩
  haveI : IsTrans (Nat × α) (sortLE cmp) := ⟨fun p q r => htrans p q r⟩
  refine ⟨(l.enum).insertionSort (sortLE cmp), rfl, List.perm_insertionSort _ _,
    List.sorted_insertionSort _ _, ?_⟩
  have hperm : (((l.enum).insertionSort (sortLE cmp)).map Prod.fst).Perm
      (l.enum.map Prod.fst) := (List.perm_insertionSort _ _).map _
  have hnodup : (((l.enum).insertionSort (sortLE cmp)).map Prod.fst).Nodup := by
    rw [hperm.nodup_iff, List.enum_map_fst]
    exact List.nodup_range _
  exact List.pairwise_map.mp hnodup

/-- C1: past the gate, with at least one token, under a cache holding no
stale entry for the given records and no fingerprint collision among them,
`filterAndRank` keeps exactly the records whose classification is non-null
and orders them as the stable sort by tier, best-field priority in the
numeric-intent-dependent order, then case-folded name, with ties keeping
the input order. -/
theorem filterAndRank_characterization (σ : Cache) (contacts : List Contact) (query : String)
    (hgate : ¬(nonSpaceCharCount query < 3 ∧ digitCount query < 3))
    (htoks : tokenize query ≠ [])
    (hfaith : cacheFaithfulFor σ contacts)
    (hinj : keysInjectiveOn contacts) :
    ((contacts.filterMap (rankOf (tokenize query) (numericIntentOf (tokenize query)))).map
          RankItem.contact
        = contacts.filter fun c => (classifyMatch (tokenize query) (buildIndex c)).isSome)
      ∧ ∃ l' : List (Nat × RankItem),
          (filterAndRank σ contacts query).1 = l'.map (fun p => p.2.contact)
          ∧ l'.Perm (contacts.filterMap
              (rankOf (tokenize query) (numericIntentOf (tokenize query)))).enum
          ∧ l'.Pairwise (specLE (numericIntentOf (tokenize query))) := by
  refine ⟨rankOf_map_contact _ _ contacts, ?_⟩
  have hemp : ¬((tokenize query).isEmpty = true) := fun h => htoks (by simpa using h)
  have hfr : filterAndRank σ contacts query
      = ((jsStableSort (rankCmp (numericIntentOf (tokenize query)))
            (rankResults (tokenize query) (numericIntentOf (tokenize query)) σ contacts).1).map
          RankItem.contact,
        (rankResults (tokenize query) (numericIntentOf (tokenize query)) σ contacts).2) := by
    simp only [filterAndRank]
    rw [if_neg hgate, if_neg hemp]
  obtain ⟨hr1, _⟩ := rankResults_eq (tokenize query) (numericIntentOf (tokenize query))
    contacts σ contacts (fun c hc => hc) hfaith hinj
  obtain ⟨l', hmap, hperm, hsorted, hne⟩ :=
    jsStableSort_spec (rankCmp (numericIntentOf (tokenize query)))
      (contacts.filterMap (rankOf (tokenize query) (numericIntentOf (tokenize query))))
      (rankCmp_sortLE_total _) (rankCmp_sortLE_trans _)
  refine ⟨l', ?_, hperm, ?_⟩
  · rw [hfr]
    simp only
    rw [hr1, hmap, List.map_map]
    rfl
  · refine (hsorted.and hne).imp ?_
    intro p q hpq
    obtain ⟨hle, hnei⟩ := hpq
    simp only [sortLE] at hle
    simp only [specLE]
    rcases hle with h | ⟨h, hle'⟩
    · exact Or.inl ((rankCmp_lt_iff _ _ _).mp h)
    · exact Or.inr ⟨(rankCmp_eq_iff _ _ _).mp h, lt_of_le_of_ne hle' hnei⟩

set_option maxRecDepth 100000 in
/-- Witness for the ranking characterization at a concrete query and list. -/
theorem filterAndRank_characterization_witness :
    ∃ l' : List (Nat × RankItem),
      (filterAndRank [] [⟨"1", "Zoe", some "z@q.com", none, none⟩,
          ⟨"2", "Amy", some "a@q.com", none, none⟩] "q.com").1
          = l'.map (fun p => p.2.contact)
        ∧ l'.Perm (([⟨"1", "Zoe", some "z@q.com", none, none⟩,
            ⟨"2", "Amy", some "a@q.com", none, none⟩] : List Contact).filterMap
              (rankOf (tokenize "q.com") (numericIntentOf (tokenize "q.com")))).enum
        ∧ l'.Pairwise (specLE (numericIntentOf (tokenize "q.com"))) :=
  (filterAndRank_characterization [] [⟨"1", "Zoe", some "z@q.com", none, none⟩,
      ⟨"2", "Amy", some "a@q.com", none, none⟩] "q.com"
    (by decide) (by decide)
    (fun e he => absurd he (List.not_mem_nil e))
    (by unfold keysInjectiveOn; decide)).2

/-! ## Helper lemmas: round-trip stability -/

theorem rankResults_cache_mem (toks : List String) (nI : Bool) :
    ∀ (cs : List Contact) (σ : Cache) {e : String × SearchIndex},
      e ∈ (rankResults toks nI σ cs).2 →
      e ∈ σ ∨ ∃ c ∈ cs, e = (getCacheKey c, buildIndex c) := by
  intro cs
  induction cs with
  | nil => intro σ e he; exact Or.inl he
  | cons c cs ih =>
    intro σ e he
    have h2 : (rankResults toks nI σ (c :: cs)).2
        = (rankResults toks nI ((getMemoizedIndex σ c).2) cs).2 := by
      simp only [rankResults]
      cases classifyMatch toks ((getMemoizedIndex σ c).1) <;> rfl
    rw [h2] at he
    rcases ih ((getMemoizedIndex σ c).2) he with h | ⟨d, hd, hde⟩
    · rcases getMemoizedIndex_cache_mem h with h' | h'
      · exact Or.inl h'
      · exact Or.inr ⟨c, List.mem_cons_self _ _, h'⟩
    · exact Or.inr ⟨d, List.mem_cons_of_mem _ hd, hde⟩

theorem rankOf_contact {toks : List String} {nI : Bool} {c : Contact} {it : RankItem}
    (h : rankOf toks nI c = some it) : it.contact = c := by
  unfold rankOf at h
  cases hcl : classifyMatch toks (buildIndex c) with
  | none => rw [hcl] at h; cases h
  | some tier =>
    rw [hcl] at h
    cases h
    rfl

theorem rankOf_of_mem_filterMap {toks : List String} {nI : Bool} {cs : List Contact}
    {it : RankItem} (h : it ∈ cs.filterMap (rankOf toks nI)) :
    rankOf toks nI it.contact = some it := by
  obtain ⟨c, _, hsome⟩ := List.mem_filterMap.mp h
  rw [rankOf_contact hsome]
  exact hsome

theorem filterMap_eq_self_of_some {α : Type} {f : α → Option α} : ∀ {l : List α},
    (∀ x ∈ l, f x = some x) → l.filterMap f = l := by
  intro l
  induction l with
  | nil => intro _; rfl
  | cons a as ih =>
    intro h
    simp [List.filterMap_cons, h a (List.mem_cons_self _ _),
      ih fun x hx => h x (List.mem_cons_of_mem _ hx)]

theorem jsStableSort_eq_self {α : Type} {cmp : α → α → Int} {l : List α}
    (h : l.Pairwise fun a b => cmp a b ≤ 0) : jsStableSort cmp l = l := by
  unfold jsStableSort
  have hpw : List.Sorted (sortLE cmp) l.enum := pairwise_enumFrom_of_pairwise h 0
  rw [List.Sorted.insertionSort_eq hpw, List.enum_map_snd]

/-- C8: re-running the ranking on its own output with the same query (and
the cache state the first run left behind) reproduces the same order. -/
theorem filterAndRank_idempotent (σ : Cache) (contacts : List Contact) (query : String)
    (hfaith : cacheFaithfulFor σ contacts) (hinj : keysInjectiveOn contacts) :
    (filterAndRank ((filterAndRank σ contacts query).2)
        ((filterAndRank σ contacts query).1) query).1
      = (filterAndRank σ contacts query).1 := by
  by_cases hgate : nonSpaceCharCount query < 3 ∧ digitCount query < 3
  · have h1 : filterAndRank σ contacts query = (contacts, σ) := by
      unfold filterAndRank
      rw [if_pos hgate]
    rw [h1]
    show (filterAndRank σ contacts query).1 = contacts
    rw [h1]
  · by_cases hemp : (tokenize query).isEmpty = true
    · have h1 : filterAndRank σ contacts query = (contacts, σ) := by
        unfold filterAndRank
        rw [if_neg hgate, if_pos hemp]
      rw [h1]
      show (filterAndRank σ contacts query).1 = contacts
      rw [h1]
    · set toks := tokenize query with htoksdef
      set nI := numericIntentOf toks with hnIdef
      set items := contacts.filterMap (rankOf toks nI) with hitemsdef
      have hfr1 : filterAndRank σ contacts query
          = ((jsStableSort (rankCmp nI) (rankResults toks nI σ contacts).1).map
              RankItem.contact,
            (rankResults toks nI σ contacts).2) := by
        simp only [filterAndRank]
        rw [if_neg hgate, if_neg hemp]
      obtain ⟨hr1, _⟩ :=
        rankResults_eq toks nI contacts σ contacts (fun c hc => hc) hfaith hinj
      obtain ⟨l', hmap, hperm, hsorted, hne⟩ :=
        jsStableSort_spec (rankCmp nI) items (rankCmp_sortLE_total _) (rankCmp_sortLE_trans _)
      have hout : (filterAndRank σ contacts query).1
          = (jsStableSort (rankCmp nI) items).map RankItem.contact := by
        rw [hfr1]
        simp only
        rw [hr1]
      have hcache : (filterAndRank σ contacts query).2 = (rankResults toks nI σ contacts).2 := by
        rw [hfr1]
      have hsortedsub : ∀ it ∈ jsStableSort (rankCmp nI) items, it ∈ items := by
        intro it hit
        rw [hmap] at hit
        obtain ⟨p, hp, hpe⟩ := List.mem_map.mp hit
        have hpmem : p ∈ items.enum := hperm.subset hp
        have hsnd := snd_mem_of_mem_enumFrom hpmem
        rwa [hpe] at hsnd
      have houtsub : ∀ x ∈ (jsStableSort (rankCmp nI) items).map RankItem.contact,
          x ∈ contacts := by
        intro x hx
        obtain ⟨it, hit, hite⟩ := List.mem_map.mp hx
        have h1 : x ∈ items.map RankItem.contact :=
          hite ▸ List.mem_map_of_mem RankItem.contact (hsortedsub it hit)
        rw [hitemsdef, rankOf_map_contact] at h1
        exact List.filter_subset' contacts h1
      have hfaith2 : cacheFaithfulFor ((filterAndRank σ contacts query).2)
          ((jsStableSort (rankCmp nI) items).map RankItem.contact) := by
        intro e he c' hc' hkey
        rw [hcache] at he
        rcases rankResults_cache_mem toks nI contacts σ he with h | ⟨c, hc, hce⟩
        · exact hfaith e h c' (houtsub c' hc') hkey
        · subst hce
          exact hinj c hc c' (houtsub c' hc') hkey
      have hinj2 : keysInjectiveOn ((jsStableSort (rankCmp nI) items).map RankItem.contact) := by
        intro c hc c' hc' hkey
        exact hinj c (houtsub c hc) c' (houtsub c' hc') hkey
      have hfr2 : filterAndRank ((filterAndRank σ contacts query).2)
          ((filterAndRank σ contacts query).1) query
          = ((jsStableSort (rankCmp nI)
                (rankResults toks nI ((filterAndRank σ contacts query).2)
                  ((filterAndRank σ contacts query).1)).1).map RankItem.contact,
            (rankResults toks nI ((filterAndRank σ contacts query).2)
              ((filterAndRank σ contacts query).1)).2) := by
        simp only [filterAndRank]
        rw [if_neg hgate, if_neg hemp]
      obtain ⟨hr2, _⟩ :=
        rankResults_eq toks nI ((jsStableSort (rankCmp nI) items).map RankItem.contact)
          ((filterAndRank σ contacts query).2)
          ((jsStableSort (rankCmp nI) items).map RankItem.contact)
          (fun c hc => hc) hfaith2 hinj2
      have hitems2 : ((jsStableSort (rankCmp nI) items).map RankItem.contact).filterMap
          (rankOf toks nI) = jsStableSort (rankCmp nI) items := by
        rw [List.filterMap_map]
        exact filterMap_eq_self_of_some fun it hit =>
          rankOf_of_mem_filterMap (hitemsdef ▸ hsortedsub it hit)
      have hpair : (jsStableSort (rankCmp nI) items).Pairwise
          fun a b => rankCmp nI a b ≤ 0 := by
        rw [hmap]
        refine List.pairwise_map.mpr (hsorted.imp ?_)
        intro p q hpq
        simp only [sortLE] at hpq
        rcases hpq with h | ⟨h, _⟩
        · exact le_of_lt h
        · exact le_of_eq h
      have hsortid : jsStableSort (rankCmp nI) (jsStableSort (rankCmp nI) items)
          = jsStableSort (rankCmp nI) items := jsStableSort_eq_self hpair
      calc (filterAndRank ((filterAndRank σ contacts query).2)
              ((filterAndRank σ contacts query).1) query).1
          = (jsStableSort (rankCmp nI)
              (rankResults toks nI ((filterAndRank σ contacts query).2)
                ((filterAndRank σ contacts query).1)).1).map RankItem.contact := by
            rw [hfr2]
        _ = (jsStableSort (rankCmp nI) (jsStableSort (rankCmp nI) items)).map
              RankItem.contact := by
            rw [hout, hr2, hitems2]
        _ = (jsStableSort (rankCmp nI) items).map RankItem.contact := by rw [hsortid]
        _ = (filterAndRank σ contacts query).1 := hout.symm

set_option maxRecDepth 100000 in
/-- Witness for round-trip stability at a concrete query and list. -/
theorem filterAndRank_idempotent_witness :
    (filterAndRank ((filterAndRank [] [⟨"1", "Zoe", some "z@q.com", none, none⟩,
          ⟨"2", "Amy", some "a@q.com", none, none⟩] "amy").2)
        ((filterAndRank [] [⟨"1", "Zoe", some "z@q.com", none, none⟩,
          ⟨"2", "Amy", some "a@q.com", none, none⟩] "amy").1) "amy").1
      = (filterAndRank [] [⟨"1", "Zoe", some "z@q.com", none, none⟩,
          ⟨"2", "Amy", some "a@q.com", none, none⟩] "amy").1 :=
  filterAndRank_idempotent [] [⟨"1", "Zoe", some "z@q.com", none, none⟩,
      ⟨"2", "Amy", some "a@q.com", none, none⟩] "amy"
    (fun e he => absurd he (List.not_mem_nil e))
    (by unfold keysInjectiveOn; decide)

end NodeRunner
